import Mathlib

/-!
# Pathfinder: a verification development for `src/main.cpp`

The program is a map viewer over a fixed graph of seven cities.  This file embeds the
parts of `main.cpp` that carry logic:

* `setupNodesAndLines` (the hardcoded graph and its adjacency list),
* `findShortestPath` (the routing loop, together with the binary heap that
  `std::priority_queue` runs on node ids, its comparator reading the current `dist` map),
* `measureTextWidthPx`, the HUD layout of `drawPathInfoLabels`, and `wrapIndex`,
* the glyph table `GLYPH_5x7` with `drawLabelAtPixelScaled`, the click handler
  `mouse_button_callback`, and the image keys of `processInput`.

Conventions of the embedding.

* Node ids are natural numbers.  The sentinel `-1` of the `parent` map is `none`.
* A `double` distance is an element of an ordered additive monoid `W` (exact arithmetic);
  `std::numeric_limits<double>::infinity()` is `none` in `Option W`.  The last section of
  definitions repeats the routing loop with the sum `dist[u] + w` rounded as a `double`
  (`findShortestPathDouble`); the two runs agree where no sum rounds or overflows, as on the
  hardcoded graph, and differ where a sum overflows to `+infinity`.
* `std::map<int,double> dist` is a total function `Nat → Option W`.  Reading a key that was
  never written default-inserts `0.0`, hence the initial map is `∞` on `0..n-1` and `0`
  elsewhere.
* Loops that the source runs until a condition holds take a fuel argument; running out of
  fuel is `none`.
-/

namespace Pathfinder

/-! ## Distances with infinity -/

section Dist

variable {W : Type} [LinearOrderedAddCommMonoid W]

/-- The comparison `a < b` on doubles where `none` is `+infinity`. -/
def ltD : Option W → Option W → Bool
  | some a, some b => decide (a < b)
  | some _, none => true
  | none, _ => false

/-- The sum `d + w` of a distance and a finite edge weight, taken exactly;
`infinity + w = infinity`.  The same sum rounded as a `double` is `addDouble`. -/
def addD : Option W → W → Option W
  | some a, w => some (a + w)
  | none, _ => none

/-- Assignment `m[k] = x` on a map modelled as a total function. -/
def assign {β : Type} (m : Nat → β) (k : Nat) (x : β) : Nat → β :=
  fun i => if i = k then x else m i

/-- The lambda `cmp = [&](int a, int b){ return dist[a] > dist[b]; }` of `findShortestPath`. -/
def cmp (dist : Nat → Option W) (a b : Nat) : Bool := ltD (dist b) (dist a)

/-! ## The binary heap under `std::priority_queue`

`std::priority_queue<int, std::vector<int>, decltype(cmp)>` keeps its elements in a vector
`c` arranged by `std::push_heap` / `std::pop_heap`.  These are not part of `main.cpp`; they are
transcribed from the C++ standard library shipped with GCC (`bits/stl_heap.h`: `__push_heap`,
`__adjust_heap`, `__pop_heap`, `pop_heap`).  Every comparison goes through `cmp`, which reads
`dist` at the time of the call. -/

/-- The loop of `__push_heap(first, holeIndex, topIndex, value, comp)`: the hole climbs while
its parent compares below `value`.  The fuel is the hole index, which strictly decreases. -/
def pushHeapLoop (dist : Nat → Option W) :
    Nat → List Nat → Nat → Nat → Nat → List Nat
  | 0, c, hole, _, value => c.set hole value
  | fuel + 1, c, hole, top, value =>
    let parent := (hole - 1) / 2
    if hole > top ∧ cmp dist (c.getD parent 0) value = true then
      pushHeapLoop dist fuel (c.set hole (c.getD parent 0)) parent top value
    else
      c.set hole value

/-- The call `std::push_heap(c.begin(), c.end(), comp)`: the last element is the new value. -/
def pushHeap (dist : Nat → Option W) (c : List Nat) : List Nat :=
  let hole := c.length - 1
  pushHeapLoop dist hole c hole 0 (c.getD hole 0)

/-- The call `pq.push(v)`: `c.push_back(v)` followed by `push_heap`. -/
def pqPush (dist : Nat → Option W) (c : List Nat) (v : Nat) : List Nat :=
  pushHeap dist (c ++ [v])

/-- The first loop of `__adjust_heap`: the hole descends to the bottom level, each time
taking the child that `comp` does not put below its sibling.  Returns the vector and the
final hole.  The fuel is the length of the range, the hole strictly increases. -/
def adjustLoop (dist : Nat → Option W) (len : Nat) :
    Nat → List Nat → Nat → List Nat × Nat
  | 0, c, hole => (c, hole)
  | fuel + 1, c, hole =>
    if hole < (len - 1) / 2 then
      let second := 2 * (hole + 1)
      let child :=
        if cmp dist (c.getD second 0) (c.getD (second - 1) 0) = true then second - 1 else second
      adjustLoop dist len fuel (c.set hole (c.getD child 0)) child
    else
      (c, hole)

/-- The function `__adjust_heap(first, 0, len, value, comp)`: the descent, the step for a
last parent with a single child, then `__push_heap` from the hole reached. -/
def adjustHeap (dist : Nat → Option W) (c : List Nat) (len : Nat) (value : Nat) : List Nat :=
  let r := adjustLoop dist len len c 0
  let c1 := r.1
  let hole := r.2
  if len % 2 = 0 ∧ hole = (len - 2) / 2 then
    let second := 2 * (hole + 1)
    let c2 := c1.set hole (c1.getD (second - 1) 0)
    pushHeapLoop dist (second - 1) c2 (second - 1) 0 value
  else
    pushHeapLoop dist hole c1 hole 0 value

/-- The call `std::pop_heap(c.begin(), c.end(), comp)`: with more than one element the last
one is taken out as `value`, the first is stored in its place, and the heap of the first
`len - 1` positions is re-arranged around `value`. -/
def popHeap (dist : Nat → Option W) (c : List Nat) : List Nat :=
  if c.length > 1 then
    let last := c.length - 1
    let value := c.getD last 0
    adjustHeap dist (c.set last (c.getD 0 0)) last value
  else c

/-- The call `pq.pop()`: `pop_heap` followed by `c.pop_back()`. -/
def pqPop (dist : Nat → Option W) (c : List Nat) : List Nat :=
  (popHeap dist c).dropLast

/-! ## findShortestPath -/

/-- The local state of `findShortestPath`: the maps `dist` and `parent`, and the vector
under the priority queue. -/
structure State (W : Type) where
  dist : Nat → Option W
  parent : Nat → Option Nat
  pq : List Nat

/-- One pass of the body of `for (auto& e : adjacencyList[u])`. -/
def relax (u : Nat) (st : State W) (e : Nat × W) : State W :=
  let v := e.1
  let w := e.2
  if ltD (addD (st.dist u) w) (st.dist v) = true then
    let dist1 := assign st.dist v (addD (st.dist u) w)
    { dist := dist1, parent := assign st.parent v (some u), pq := pqPush dist1 st.pq v }
  else st

/-- The state before the loop: `dist` is infinity on the nodes and `0` at `start`, `parent`
is `-1`, the queue holds `start`. -/
def initState (n start : Nat) : State W :=
  let dist0 : Nat → Option W := fun i => if i < n then none else some 0
  let dist1 := assign dist0 start (some 0)
  { dist := dist1, parent := fun _ => none, pq := pqPush dist1 [] start }

/-- The loop `while (!pq.empty())` of `findShortestPath`, with `break` when `end` is popped. -/
def mainLoop (adj : List (List (Nat × W))) (target : Nat) : Nat → State W → Option (State W)
  | 0, _ => none
  | fuel + 1, st =>
    match st.pq with
    | [] => some st
    | u :: rest =>
      let st1 : State W := { st with pq := pqPop st.dist (u :: rest) }
      if u = target then some st1
      else mainLoop adj target fuel ((adj.getD u []).foldl (relax u) st1)

/-- The loop `for (int cur = end; cur != -1; cur = parent[cur]) path.push_back(cur)`. -/
def walkParents (parent : Nat → Option Nat) : Nat → Option Nat → List Nat → Option (List Nat)
  | _, none, path => some path
  | 0, some _, _ => none
  | fuel + 1, some cur, path => walkParents parent fuel (parent cur) (path ++ [cur])

/-- The function `findShortestPath(start, end)` over `n = nodes.size()` nodes and the global
`adjacencyList`.  The result is `none` only when `fuel` iterations do not finish a loop. -/
def findShortestPath (fuel : Nat) (adj : List (List (Nat × W))) (n start target : Nat) :
    Option (List Nat × W) :=
  if start = target then some ([start], 0)
  else
    match mainLoop adj target fuel (initState n start) with
    | none => none
    | some st =>
      match st.dist target with
      | none => some ([], 0)
      | some d =>
        match walkParents st.parent fuel (some target) [] with
        | none => none
        | some path => some (path.reverse, d)

end Dist

/-! ## setupNodesAndLines -/

/-- The class `WeightedLine`. -/
structure WeightedLine where
  start : Nat
  «end» : Nat
  weight : Nat
  deriving DecidableEq, Repr

/-- The names of `nodes`, in order. -/
def nodeNames : List String :=
  ["Rangpur", "Sylhet", "Khulna", "Chittagong", "Dhaka", "Rajshahi", "Barishal"]

/-- The vector `lines` (pairs of indices). -/
def lines : List Nat :=
  [0,1, 0,2, 1,3, 2,3, 0,4, 1,4, 2,4, 3,4, 5,0, 5,2, 6,1, 6,3]

/-- The vector `linesWithWeights`. -/
def linesWithWeights : List WeightedLine :=
  [⟨0,1,500⟩, ⟨0,2,512⟩, ⟨1,3,363⟩,
   ⟨2,3,442⟩, ⟨0,4,294⟩, ⟨1,4,240⟩,
   ⟨2,4,222⟩, ⟨3,4,257⟩, ⟨5,0,217⟩,
   ⟨5,2,255⟩, ⟨6,1,402⟩, ⟨6,3,243⟩]

/-- The statement `adjacencyList[i].push_back(x)`. -/
def pushAt (adj : List (List (Nat × Nat))) (i : Nat) (x : Nat × Nat) : List (List (Nat × Nat)) :=
  adj.set i (adj.getD i [] ++ [x])

/-- The loop `for (const auto& e : linesWithWeights)` after `adjacencyList.resize(n)`. -/
def buildAdjacency (n : Nat) (es : List WeightedLine) : List (List (Nat × Nat)) :=
  es.foldl (fun adj e => pushAt (pushAt adj e.start (e.end, e.weight)) e.end (e.start, e.weight))
    (List.replicate n [])

/-- The global `adjacencyList` after `setupNodesAndLines`. -/
def adjacencyList : List (List (Nat × Nat)) :=
  buildAdjacency nodeNames.length linesWithWeights

/-! ## Paths and their weights -/

section Walks

variable {W : Type} [LinearOrderedAddCommMonoid W]

/-- The predicate `Walk adj u t d`: some path of the adjacency list leads from `u` to `t` and
the weights of its edges add up to `d`. -/
inductive Walk (adj : List (List (Nat × W))) : Nat → Nat → W → Prop
  | nil (u : Nat) : Walk adj u u 0
  | cons {u v t : Nat} {w d : W} : (v, w) ∈ adj.getD u [] → Walk adj v t d → Walk adj u t (w + d)

/-- The node `t` can be reached from `s`. -/
def Reachable (adj : List (List (Nat × W))) (s t : Nat) : Prop := ∃ d, Walk adj s t d

/-- The value `d` is the minimum total edge weight over all paths from `s` to `t`. -/
def IsMinDist (adj : List (List (Nat × W))) (s t : Nat) (d : W) : Prop :=
  Walk adj s t d ∧ ∀ d', Walk adj s t d' → d ≤ d'

/-- Every stored edge weight is non-negative. -/
def NonNeg (adj : List (List (Nat × W))) : Prop := ∀ l ∈ adj, ∀ e ∈ l, 0 ≤ e.2

/-- The weight of the first edge from `u` to `v` stored in `adjacencyList[u]`. -/
def edgeWeight (adj : List (List (Nat × W))) (u v : Nat) : Option W :=
  ((adj.getD u []).find? (fun e => e.1 = v)).map Prod.snd

/-- The sum of the weights of the edges joining consecutive nodes of `path`; `none` when two
consecutive nodes are not joined by an edge. -/
def pathWeight (adj : List (List (Nat × W))) : List Nat → Option W
  | [] => some 0
  | [_] => some 0
  | u :: v :: rest =>
    match edgeWeight adj u v, pathWeight adj (v :: rest) with
    | some w, some d => some (w + d)
    | _, _ => none

/-- Every two consecutive nodes `u`, `v` of `path` have an entry `(v, w)` in `adjacencyList[u]`. -/
def EdgesOf (adj : List (List (Nat × W))) (path : List Nat) : Prop :=
  List.Chain' (fun u v => ∃ w, (v, w) ∈ adj.getD u []) path

end Walks

/-! ## Reading setupNodesAndLines -/

/-- The line `e` joins `u` to `v` with weight `w`, in either direction. -/
def Joins (e : WeightedLine) (u v w : Nat) : Prop :=
  (e.start = u ∧ e.end = v ∧ e.weight = w) ∨ (e.end = u ∧ e.start = v ∧ e.weight = w)

/-- Two weighted lines join the same unordered pair of nodes. -/
def SameEnds (a b : WeightedLine) : Prop :=
  (a.start = b.start ∧ a.end = b.end) ∨ (a.start = b.end ∧ a.end = b.start)

instance (a b : WeightedLine) : Decidable (SameEnds a b) := by
  unfold SameEnds; infer_instance

/-! ## HUD text measurement and layout

Pixel quantities are `float` in the source; here they are rationals, so every identity below
is one of exact arithmetic.  A `std::string` is a `String` and `size()` is its length. -/

/-- The constant `kSpeedUnitsPerHour = 50.0`. -/
def kSpeedUnitsPerHour : ℚ := 50

/-- The constant `kCostPerUnit = 3.2`. -/
def kCostPerUnit : ℚ := 16 / 5

/-- The constant `kPathInfoTextScale = 0.65f`. -/
def kPathInfoTextScale : ℚ := 13 / 20

/-- The constant `kHudMarginLeftPx = 12.0f`. -/
def kHudMarginLeftPx : ℚ := 12

/-- The constant `kHudMarginBottomPx = 12.0f`. -/
def kHudMarginBottomPx : ℚ := 12

/-- The constant `kHudPaddingPx = 8.0f`. -/
def kHudPaddingPx : ℚ := 8

/-- The constant `kHudLineGapBasePx = 6.0f`. -/
def kHudLineGapBasePx : ℚ := 6

/-- The local `charW = 5*dot + 4*gap` with `dot = 2 * scale`, `gap = 1 * scale`. -/
def charW (scale : ℚ) : ℚ := 5 * (2 * scale) + 4 * (1 * scale)

/-- The local `charH = 7*dot + 6*gap`. -/
def charH (scale : ℚ) : ℚ := 7 * (2 * scale) + 6 * (1 * scale)

/-- The local `charGap = 2 * scale`. -/
def charGap (scale : ℚ) : ℚ := 2 * scale

/-- The function `measureTextWidthPx(text, scale)`. -/
def measureTextWidthPx (text : String) (scale : ℚ) : ℚ :=
  if text.length = 0 then 0
  else (text.length : ℚ) * (charW scale + charGap scale) - charGap scale

/-- The function `std::round` on an exact value: to the nearest integer, halves away from
zero. -/
def roundHalfAway (x : ℚ) : Int :=
  if 0 ≤ x then ⌊x + 1 / 2⌋ else -⌊-x + 1 / 2⌋

/-- The string `distTxt` of `drawPathInfoLabels`: `(int)std::round(totalPathDistance)`
followed by `"KM"`. -/
def distTxt (totalPathDistance : ℚ) : String :=
  toString (roundHalfAway totalPathDistance) ++ "KM"

/-- The local `hours` of `drawPathInfoLabels`. -/
def hours (totalPathDistance : ℚ) : ℚ :=
  if kSpeedUnitsPerHour > 0 then totalPathDistance / kSpeedUnitsPerHour else 0

/-- The local `cost` of `drawPathInfoLabels`. -/
def cost (totalPathDistance : ℚ) : ℚ := totalPathDistance * kCostPerUnit

/-- An axis-parallel rectangle in pixels, origin top-left, `y` growing downwards. -/
structure Rect where
  left : ℚ
  top : ℚ
  right : ℚ
  bottom : ℚ

/-- What `drawPathInfoLabels` lays out for the three texts: the rectangle handed to
`drawPixelRect` and the top edges handed to `drawLabelAtPixelScaled`. -/
structure HudLayout where
  panel : Rect
  yDistTop : ℚ
  yTimeTop : ℚ
  yCostTop : ℚ

/-- The layout part of `drawPathInfoLabels` (from `const float scale = kPathInfoTextScale`
on) for a window of height `windowH` and the three texts. -/
def hudLayout (windowH : Int) (distText timeText costText : String) : HudLayout :=
  let scale := kPathInfoTextScale
  let lineGapPx := kHudLineGapBasePx * scale
  let yDistTop := (windowH : ℚ) - kHudMarginBottomPx - charH scale
  let yTimeTop := yDistTop - (charH scale + lineGapPx)
  let yCostTop := yTimeTop - (charH scale + lineGapPx)
  let wDist := measureTextWidthPx distText scale
  let wTime := measureTextWidthPx timeText scale
  let wCost := measureTextWidthPx costText scale
  let maxW := max wDist (max wTime wCost)
  { panel :=
      { left := kHudMarginLeftPx - kHudPaddingPx
        right := kHudMarginLeftPx + maxW + kHudPaddingPx
        top := yCostTop - kHudPaddingPx
        bottom := yDistTop + charH scale + kHudPaddingPx }
    yDistTop := yDistTop
    yTimeTop := yTimeTop
    yCostTop := yCostTop }

/-- The bounding box of a text line drawn by `drawLabelAtPixelScaled(kHudMarginLeftPx, yTop,
text, scale)`: as wide as `measureTextWidthPx` says and `charH` high. -/
def lineBox (yTop : ℚ) (text : String) : Rect :=
  { left := kHudMarginLeftPx
    top := yTop
    right := kHudMarginLeftPx + measureTextWidthPx text kPathInfoTextScale
    bottom := yTop + charH kPathInfoTextScale }

/-- The rectangle `outer` contains `inner` with at least `m` pixels to spare on every side. -/
def ContainsWithMargin (outer inner : Rect) (m : ℚ) : Prop :=
  outer.left + m ≤ inner.left ∧ inner.right + m ≤ outer.right ∧
  outer.top + m ≤ inner.top ∧ inner.bottom + m ≤ outer.bottom

/-! ## wrapIndex -/

/-- The function `wrapIndex(i, n)`; `%` on `int` truncates towards zero.  For `n > 0` neither
`i % n` nor `r += n` can overflow, so unbounded integers compute what `int` computes. -/
def wrapIndex (i n : Int) : Int :=
  if n ≤ 0 then 0
  else
    let r := Int.tmod i n
    if r < 0 then r + n else r

/-! ## The reference algorithm of the specification

The specification calls the routine "a textbook Dijkstra implementation".  The definitions of
this section follow those words, not the source: the array-based algorithm with a set of
settled nodes, which settles in each round the unsettled node of least finite distance. -/

section Textbook

variable {W : Type} [LinearOrderedAddCommMonoid W]

end Textbook

/-- Six weighted lines on four nodes, in the format of `linesWithWeights`. -/
def detourLines : List WeightedLine :=
  [⟨2,3,4⟩, ⟨0,1,1⟩, ⟨1,3,7⟩, ⟨0,2,12⟩, ⟨1,2,1⟩, ⟨0,3,9⟩]

/-- The adjacency list that the loop of `setupNodesAndLines` builds from `detourLines`. -/
def detourAdjacency : List (List (Nat × Nat)) := buildAdjacency 4 detourLines

/-! ## Invariants of the loop of findShortestPath

The predicates of this section are not in the source: they state what the loop keeps true,
and are used to prove the general claims. -/

section Invariants

variable {W : Type} [LinearOrderedAddCommMonoid W]

/-- The node `b` is met when following `parent` pointers from `a` (zero or more steps). -/
def Anc (parent : Nat → Option Nat) : Nat → Nat → Prop :=
  Relation.ReflTransGen (fun a b => parent a = some b)

/-- What the maps `dist` and `parent` satisfy throughout the loop. -/
structure Core (adj : List (List (Nat × W))) (n start : Nat) (st : State W) : Prop where
  out : ∀ v, n ≤ v → st.dist v = some 0
  nonneg : ∀ v d, st.dist v = some d → 0 ≤ d
  start_dist : st.dist start = some 0
  start_parent : st.parent start = none
  edge : ∀ x p, st.parent x = some p → x < n ∧ p < n ∧
    ∃ w dp dx, (x, w) ∈ adj.getD p [] ∧ st.dist p = some dp ∧ st.dist x = some dx ∧ dp + w ≤ dx
  has_parent : ∀ x, x < n → x ≠ start → st.dist x ≠ none → st.parent x ≠ none
  anc : ∀ x, x < n → st.dist x ≠ none → Anc st.parent x start

/-- What the queue satisfies between two iterations of the loop: it holds nodes of finite
distance, and every node of finite distance outside it has all its edges relaxed. -/
structure QInv (adj : List (List (Nat × W))) (n : Nat) (st : State W) : Prop where
  mem : ∀ x ∈ st.pq, x < n ∧ st.dist x ≠ none
  relaxed : ∀ a da, a < n → st.dist a = some da → a ∉ st.pq →
    ∀ e ∈ adj.getD a [], ∃ db, st.dist e.1 = some db ∧ db ≤ da + e.2

/-- A witness for a distance value: a path from `s` without repeated node, listed backwards
in `vis`, of total weight `d`, such that the current distance of every node on it is at most
the weight of the path up to that node. -/
inductive Wit (adj : List (List (Nat × W))) (n : Nat) (dist : Nat → Option W) (s : Nat) :
    List Nat → List W → Nat → W → Prop
  | base : Wit adj n dist s [s] [] s 0
  | step {vis : List Nat} {ws : List W} {u v : Nat} {d w : W} :
      Wit adj n dist s vis ws u d → (v, w) ∈ adj.getD u [] → v < n → v ∉ vis →
      (∃ dv, dist v = some dv ∧ dv ≤ d + w) → Wit adj n dist s (v :: vis) (w :: ws) v (d + w)

/-- Every finite distance of a node has a witness. -/
def Ghost (adj : List (List (Nat × W))) (n start : Nat) (dist : Nat → Option W) : Prop :=
  ∀ v d, v < n → dist v = some d → ∃ vis ws, Wit adj n dist start vis ws v d

/-- The number of values of `T` that `dist` can still drop to, summed over the nodes. -/
def slack (T : Finset W) (n : Nat) (dist : Nat → Option W) : Nat :=
  ∑ v in Finset.range n, (T.filter (fun t => ltD (some t) (dist v) = true)).card

/-- The measure that decreases with every iteration of the loop. -/
def loopMeasure (T : Finset W) (n : Nat) (st : State W) : Nat :=
  2 * slack T n st.dist + st.pq.length

/-- The set `T` holds every sum of fewer than `n` edge weights. -/
def Covers (adj : List (List (Nat × W))) (n : Nat) (T : Finset W) : Prop :=
  ∀ ws : List W, ws.length < n → (∀ w ∈ ws, w ∈ adj.flatten.map Prod.snd) → ws.sum ∈ T

/-- What holds while the edges of the popped node `u` are being relaxed. -/
structure FoldInv (adj : List (List (Nat × W))) (n start : Nat) (T : Finset W) (u : Nat)
    (du : W) (M : Nat) (st : State W) : Prop where
  core : Core adj n start st
  ghost : Ghost adj n start st.dist
  du : st.dist u = some du
  qmem : ∀ x ∈ st.pq, x < n ∧ st.dist x ≠ none
  relaxed : ∀ a da, a < n → a ≠ u → st.dist a = some da → a ∉ st.pq →
    ∀ e ∈ adj.getD a [], ∃ db, st.dist e.1 = some db ∧ db ≤ da + e.2
  bound : loopMeasure T n st ≤ M

/-- Every node of finite distance has all its edges relaxed. -/
def AllRelaxed (adj : List (List (Nat × W))) (n : Nat) (st : State W) : Prop :=
  ∀ a da, a < n → st.dist a = some da →
    ∀ e ∈ adj.getD a [], ∃ db, st.dist e.1 = some db ∧ db ≤ da + e.2

end Invariants

/-- A three-node graph in which node 2 has no edge. -/
def islandAdjacency : List (List (Nat × Nat)) := buildAdjacency 3 [⟨0,1,5⟩]

/-! ## The 5x7 dot font -/

/-- The table `GLYPH_5x7`: each character with its seven rows of five bits. -/
def GLYPH_5x7 : List (Char × List Nat) :=
  [(' ', [0x00,0x00,0x00,0x00,0x00,0x00,0x00]),
   ('A', [0x0E,0x11,0x11,0x1F,0x11,0x11,0x11]),
   ('B', [0x1E,0x11,0x11,0x1E,0x11,0x11,0x1E]),
   ('C', [0x0E,0x11,0x10,0x10,0x10,0x11,0x0E]),
   ('D', [0x1E,0x11,0x11,0x11,0x11,0x11,0x1E]),
   ('E', [0x1F,0x10,0x10,0x1E,0x10,0x10,0x1F]),
   ('G', [0x0E,0x11,0x10,0x17,0x11,0x11,0x0E]),
   ('H', [0x11,0x11,0x11,0x1F,0x11,0x11,0x11]),
   ('I', [0x1F,0x04,0x04,0x04,0x04,0x04,0x1F]),
   ('J', [0x07,0x02,0x02,0x02,0x12,0x12,0x0C]),
   ('K', [0x11,0x12,0x14,0x18,0x14,0x12,0x11]),
   ('L', [0x10,0x10,0x10,0x10,0x10,0x10,0x1F]),
   ('N', [0x11,0x19,0x15,0x13,0x11,0x11,0x11]),
   ('O', [0x0E,0x11,0x11,0x11,0x11,0x11,0x0E]),
   ('P', [0x1E,0x11,0x11,0x1E,0x10,0x10,0x10]),
   ('R', [0x1E,0x11,0x11,0x1E,0x14,0x12,0x11]),
   ('S', [0x0F,0x10,0x10,0x0E,0x01,0x01,0x1E]),
   ('T', [0x1F,0x04,0x04,0x04,0x04,0x04,0x04]),
   ('U', [0x11,0x11,0x11,0x11,0x11,0x11,0x0E]),
   ('Y', [0x11,0x0A,0x04,0x04,0x04,0x04,0x04]),
   ('0', [0x0E,0x11,0x13,0x15,0x19,0x11,0x0E]),
   ('1', [0x04,0x0C,0x14,0x04,0x04,0x04,0x1F]),
   ('2', [0x0E,0x11,0x01,0x06,0x08,0x10,0x1F]),
   ('3', [0x1F,0x02,0x04,0x06,0x01,0x11,0x0E]),
   ('4', [0x02,0x06,0x0A,0x12,0x1F,0x02,0x02]),
   ('5', [0x1F,0x10,0x1E,0x01,0x01,0x11,0x0E]),
   ('6', [0x06,0x08,0x10,0x1E,0x11,0x11,0x0E]),
   ('7', [0x1F,0x01,0x02,0x04,0x08,0x08,0x08]),
   ('8', [0x0E,0x11,0x11,0x0E,0x11,0x11,0x0E]),
   ('9', [0x0E,0x11,0x11,0x0F,0x01,0x02,0x0C]),
   ('.', [0x00,0x00,0x00,0x00,0x00,0x00,0x04]),
   ('-', [0x00,0x00,0x00,0x1F,0x00,0x00,0x00])]

/-- The uppercase letters that are left out of the statement about the table's coverage. -/
def lettersWithoutGlyph : List Char := ['F', 'M', 'Q', 'V', 'W', 'X', 'Z']

/-- The lookup `GLYPH_5x7.find(c)`: the rows of `c`, or `none` for `end()`. -/
def findGlyph (ch : Char) : Option (List Nat) := GLYPH_5x7.lookup ch

/-- The rows chosen in `drawLabelAtPixelScaled` for the character `text[i]`: those of
`toupper(text[i])` when the table has them, else those of the space. -/
def glyphRows (ch : Char) : List Nat :=
  match findGlyph ch.toUpper with
  | some rows => rows
  | none => (findGlyph ' ').getD []

/-- The test `bits & (1 << (4 - col))`. -/
def bitSet (bits col : Nat) : Bool := bits &&& (1 <<< (4 - col)) != 0

/-- The rectangles `addDot(x, y)` that `drawLabelAtPixelScaled(px_left, py_top, text, scale)`
collects, in pixels, before the conversion to NDC (with the text buffers set up; without them
the function draws nothing). -/
def drawLabelAtPixelScaled (px_left py_top : ℚ) (text : String) (scale : ℚ) : List Rect :=
  let scale := if scale ≤ 0 then 1 else scale
  let dot := 2 * scale
  let gap := 1 * scale
  (List.range text.length).flatMap fun i =>
    let rows := glyphRows (text.data.getD i ' ')
    let cx := px_left + (i : ℚ) * (charW scale + charGap scale)
    (List.range 7).flatMap fun rrow =>
      let bits := rows.getD rrow 0
      (List.range 5).flatMap fun col =>
        if bitSet bits col = true then
          [{ left := cx + (col : ℚ) * (dot + gap)
             top := py_top + (rrow : ℚ) * (dot + gap)
             right := cx + (col : ℚ) * (dot + gap) + dot
             bottom := py_top + (rrow : ℚ) * (dot + gap) + dot }]
        else []

/-! ## The click handler -/

/-- The globals that `mouse_button_callback` reads and writes. -/
structure ClickState where
  selectedNodeIndex1 : Int
  selectedNodeIndex2 : Int
  lastClickedNodeIndex : Int
  pathIndices : List Nat
  totalPathDistance : Nat
  deriving DecidableEq

/-- The initial values of the globals. -/
def initialClickState : ClickState :=
  { selectedNodeIndex1 := -1, selectedNodeIndex2 := -1, lastClickedNodeIndex := -1,
    pathIndices := [], totalPathDistance := 0 }

/-- The function `mouse_button_callback` for a left press whose hit test ends with the local
`clicked` (`-1` for no node hit).  The result is `none` only when `findShortestPath` runs
out of fuel. -/
def mouse_button_callback (fuel : Nat) (st : ClickState) (clicked : Int) : Option ClickState :=
  if clicked = -1 then some st
  else
    let st1 : ClickState := { st with lastClickedNodeIndex := clicked }
    if st1.selectedNodeIndex1 = -1 then
      some { st1 with selectedNodeIndex1 := clicked, pathIndices := [] }
    else if clicked ≠ st1.selectedNodeIndex1 then
      let st2 : ClickState := { st1 with selectedNodeIndex2 := clicked }
      match findShortestPath fuel adjacencyList nodeNames.length
          st2.selectedNodeIndex1.toNat st2.selectedNodeIndex2.toNat with
      | none => none
      | some res =>
        some { st2 with pathIndices := res.1, totalPathDistance := res.2,
                        selectedNodeIndex1 := -1, selectedNodeIndex2 := -1 }
    else some st1

/-- The arguments of the call `findShortestPath(selectedNodeIndex1, selectedNodeIndex2)` that
the handler makes on this click, when it makes one. -/
def callArguments (st : ClickState) (clicked : Int) : Option (Int × Int) :=
  if clicked = -1 then none
  else if st.selectedNodeIndex1 = -1 then none
  else if clicked ≠ st.selectedNodeIndex1 then some (st.selectedNodeIndex1, clicked)
  else none

/-- The handler run on a sequence of clicks. -/
def runClicks (fuel : Nat) : ClickState → List Int → Option ClickState
  | st, [] => some st
  | st, clicked :: rest =>
    match mouse_button_callback fuel st clicked with
    | none => none
    | some st1 => runClicks fuel st1 rest

/-- A result of the hit test: no node, or one of the nodes `0..6`. -/
def ValidClick (clicked : Int) : Prop := clicked = -1 ∨ (0 ≤ clicked ∧ clicked < 7)

/-- The invariant of the click handler: no destination is pending, and a pending start node
is a node, with no path shown. -/
def ClickInv (st : ClickState) : Prop :=
  st.selectedNodeIndex2 = -1 ∧
  (st.selectedNodeIndex1 = -1 ∨
    (0 ≤ st.selectedNodeIndex1 ∧ st.selectedNodeIndex1 < 7 ∧ st.pathIndices = []))

/-! ## The image keys of processInput -/

/-- The update of `cur` on the key `]`, for an image list of `size` entries. -/
def nextImageIndex (cur : Int) (size : Nat) : Int :=
  if size ≠ 0 then wrapIndex (cur + 1) (size : Int) else cur

/-- The update of `cur` on the key `[`. -/
def prevImageIndex (cur : Int) (size : Nat) : Int :=
  if size ≠ 0 then wrapIndex (cur - 1) (size : Int) else cur

/-! ## The sums of findShortestPath in double precision

In the source `dist[u] + w` is a sum of two `double`s: the exact sum, rounded to the nearest
double (ties to even), `+infinity` when that is beyond the largest double.  The definitions
of this section repeat `relax`, `mainLoop` and `findShortestPath` with that sum, for weights
and distances that are natural numbers.  Comparisons of doubles are exact, so `ltD` and the
heap are used as they are. -/

theorem pushAt_length (adj : List (List (Nat × Nat))) (i : Nat) (x : Nat × Nat) :
    (pushAt adj i x).length = adj.length := by
  simp [pushAt]

theorem mem_pushAt (adj : List (List (Nat × Nat))) (i : Nat) (x y : Nat × Nat) (u : Nat)
    (hi : i < adj.length) :
    y ∈ (pushAt adj i x).getD u [] ↔ y ∈ adj.getD u [] ∨ (u = i ∧ y = x) := by
  unfold pushAt
  by_cases hu : u = i
  · subst hu
    simp [List.getD_eq_getElem?_getD, List.getElem?_set, hi]
  · have hne : ¬ i = u := fun h => hu h.symm
    simp [List.getD_eq_getElem?_getD, List.getElem?_set, hu, hne]

theorem Joins.swap {e : WeightedLine} {u v w : Nat} (h : Joins e u v w) : Joins e v u w := by
  rcases h with ⟨h1, h2, h3⟩ | ⟨h1, h2, h3⟩
  · exact Or.inr ⟨h2, h1, h3⟩
  · exact Or.inl ⟨h2, h1, h3⟩

theorem mem_foldl_pushAt (es : List WeightedLine) :
    ∀ (acc : List (List (Nat × Nat))),
      (∀ e ∈ es, e.start < acc.length ∧ e.end < acc.length) →
      ∀ u v w, (v, w) ∈ (es.foldl (fun adj e =>
          pushAt (pushAt adj e.start (e.end, e.weight)) e.end (e.start, e.weight)) acc).getD u []
        ↔ (v, w) ∈ acc.getD u [] ∨ ∃ e ∈ es, Joins e u v w := by
  induction es with
  | nil => intro acc _ u v w; simp
  | cons e es ih =>
    intro acc hb u v w
    have he := hb e (List.mem_cons_self _ _)
    have hb' : ∀ e' ∈ es, e'.start < (pushAt (pushAt acc e.start (e.end, e.weight)) e.end
        (e.start, e.weight)).length ∧ e'.end < (pushAt (pushAt acc e.start (e.end, e.weight)) e.end
        (e.start, e.weight)).length := by
      intro e' he'
      simpa [pushAt_length] using hb e' (List.mem_cons_of_mem _ he')
    rw [List.foldl_cons, ih _ hb' u v w,
      mem_pushAt _ _ _ _ _ (by simpa [pushAt_length] using he.2),
      mem_pushAt _ _ _ _ _ he.1]
    simp only [Joins, Prod.mk.injEq, List.mem_cons, exists_eq_or_imp]
    constructor
    · rintro (((h | ⟨rfl, rfl, rfl⟩) | ⟨rfl, rfl, rfl⟩) | h)
      · exact Or.inl h
      · exact Or.inr (Or.inl (Or.inl ⟨rfl, rfl, rfl⟩))
      · exact Or.inr (Or.inl (Or.inr ⟨rfl, rfl, rfl⟩))
      · exact Or.inr (Or.inr h)
    · rintro (h | (⟨rfl, rfl, rfl⟩ | ⟨rfl, rfl, rfl⟩) | h)
      · exact Or.inl (Or.inl (Or.inl h))
      · exact Or.inl (Or.inl (Or.inr ⟨rfl, rfl, rfl⟩))
      · exact Or.inl (Or.inr ⟨rfl, rfl, rfl⟩)
      · exact Or.inr h

theorem mem_buildAdjacency (n : Nat) (es : List WeightedLine)
    (hb : ∀ e ∈ es, e.start < n ∧ e.end < n) (u v w : Nat) :
    (v, w) ∈ (buildAdjacency n es).getD u [] ↔ ∃ e ∈ es, Joins e u v w := by
  unfold buildAdjacency
  rw [mem_foldl_pushAt es _ (by simpa using hb) u v w]
  have : (List.replicate n ([] : List (Nat × Nat))).getD u [] = [] := by
    simp [List.getD_eq_getElem?_getD, List.getElem?_replicate]
    split <;> simp
  simp [this]

/-- C6: after `setupNodesAndLines` there are 7 nodes and 12 edges, no edge is a self-loop, no
two edges join the same unordered pair, every weight is positive, and `(v, w)` occurs in
`adjacencyList[u]` exactly when `linesWithWeights` has an edge between `u` and `v` of weight
`w`; hence the adjacency list is symmetric and stores only indices in `0..6`. -/
theorem setupNodesAndLines_adjacency :
    nodeNames.length = 7 ∧ adjacencyList.length = 7 ∧ linesWithWeights.length = 12 ∧
    (∀ e ∈ linesWithWeights, e.start ≠ e.end) ∧
    linesWithWeights.Pairwise (fun a b => ¬ SameEnds a b) ∧
    (∀ e ∈ linesWithWeights, 0 < e.weight) ∧
    (∀ u v w, (v, w) ∈ adjacencyList.getD u [] ↔ ∃ e ∈ linesWithWeights, Joins e u v w) ∧
    (∀ u v w, (v, w) ∈ adjacencyList.getD u [] ↔ (u, w) ∈ adjacencyList.getD v []) ∧
    (∀ u v w, (v, w) ∈ adjacencyList.getD u [] → u < 7 ∧ v < 7) := by
  have hb : ∀ e ∈ linesWithWeights, e.start < 7 ∧ e.end < 7 := by decide
  have hmem : ∀ u v w, (v, w) ∈ adjacencyList.getD u [] ↔
      ∃ e ∈ linesWithWeights, Joins e u v w :=
    fun u v w => mem_buildAdjacency 7 linesWithWeights hb u v w
  refine ⟨rfl, by decide, rfl, by decide, by decide, by decide, hmem, ?_, ?_⟩
  · intro u v w
    rw [hmem, hmem]
    constructor <;> rintro ⟨e, he, h⟩ <;> exact ⟨e, he, h.swap⟩
  · intro u v w h
    obtain ⟨e, he, h⟩ := (hmem u v w).1 h
    have := hb e he
    rcases h with ⟨rfl, rfl, _⟩ | ⟨rfl, rfl, _⟩
    · exact this
    · exact ⟨this.2, this.1⟩

/-! ## Trip statistics, text measurement, HUD layout -/

theorem roundHalfAway_natCast (k : Nat) : roundHalfAway (k : ℚ) = (k : Int) := by
  unfold roundHalfAway
  have h0 : (0 : ℚ) ≤ (k : ℚ) := Nat.cast_nonneg k
  rw [if_pos h0, Int.floor_eq_iff]
  constructor <;> push_cast <;> linarith

theorem measureTextWidthPx_of_pos (text : String) (scale : ℚ) (h : 1 ≤ text.length) :
    measureTextWidthPx text scale = (16 * (text.length : ℚ) - 2) * scale := by
  have h0 : ¬ text.length = 0 := by omega
  simp only [measureTextWidthPx, if_neg h0, charW, charGap]
  ring

/-- C8: `measureTextWidthPx` is `0` on the empty string; on a text of `n ≥ 1` characters it is
`n * (charW + charGap) - charGap` with `charW = 14 s` and `charGap = 2 s`, which is
`(16 n - 2) * s`; two texts of equal length have equal width. -/
theorem measureTextWidthPx_spec (scale : ℚ) :
    measureTextWidthPx "" scale = 0 ∧
    charW scale = 14 * scale ∧ charGap scale = 2 * scale ∧
    (∀ text : String, 1 ≤ text.length →
      measureTextWidthPx text scale
          = (text.length : ℚ) * (charW scale + charGap scale) - charGap scale ∧
      measureTextWidthPx text scale = (16 * (text.length : ℚ) - 2) * scale) ∧
    (∀ t₁ t₂ : String, t₁.length = t₂.length →
      measureTextWidthPx t₁ scale = measureTextWidthPx t₂ scale) := by
  refine ⟨by simp [measureTextWidthPx], by unfold charW; ring, rfl, ?_, ?_⟩
  · intro text h
    refine ⟨?_, measureTextWidthPx_of_pos text scale h⟩
    have h0 : ¬ text.length = 0 := by omega
    simp only [measureTextWidthPx, if_neg h0]
  · intro t₁ t₂ h
    simp only [measureTextWidthPx, h]

/-- C9: for every window height and every three texts, the panel of `drawPathInfoLabels`
contains the box of each of the three lines with at least `kHudPaddingPx = 8` pixels on every
side, and it is as wide as the widest line plus 16 pixels. -/
theorem hudPanel_contains_lines (windowH : Int) (distText timeText costText : String) :
    kHudPaddingPx = 8 ∧
    ContainsWithMargin (hudLayout windowH distText timeText costText).panel
      (lineBox (hudLayout windowH distText timeText costText).yDistTop distText) 8 ∧
    ContainsWithMargin (hudLayout windowH distText timeText costText).panel
      (lineBox (hudLayout windowH distText timeText costText).yTimeTop timeText) 8 ∧
    ContainsWithMargin (hudLayout windowH distText timeText costText).panel
      (lineBox (hudLayout windowH distText timeText costText).yCostTop costText) 8 ∧
    (hudLayout windowH distText timeText costText).panel.right
        - (hudLayout windowH distText timeText costText).panel.left
      = max (measureTextWidthPx distText kPathInfoTextScale)
          (max (measureTextWidthPx timeText kPathInfoTextScale)
            (measureTextWidthPx costText kPathInfoTextScale)) + 16 := by
  have hd := le_max_left (measureTextWidthPx distText kPathInfoTextScale)
    (max (measureTextWidthPx timeText kPathInfoTextScale)
      (measureTextWidthPx costText kPathInfoTextScale))
  have ht := le_trans (le_max_left (measureTextWidthPx timeText kPathInfoTextScale)
    (measureTextWidthPx costText kPathInfoTextScale))
    (le_max_right (measureTextWidthPx distText kPathInfoTextScale) _)
  have hc := le_trans (le_max_right (measureTextWidthPx timeText kPathInfoTextScale)
    (measureTextWidthPx costText kPathInfoTextScale))
    (le_max_right (measureTextWidthPx distText kPathInfoTextScale) _)
  have hH : charH kPathInfoTextScale = 13 := by norm_num [charH, kPathInfoTextScale]
  have hG : kHudLineGapBasePx * kPathInfoTextScale = 39 / 10 := by
    norm_num [kHudLineGapBasePx, kPathInfoTextScale]
  refine ⟨rfl, ?_, ?_, ?_, ?_⟩
  · simp only [hudLayout, lineBox, ContainsWithMargin, hH, hG, kHudMarginLeftPx,
      kHudPaddingPx, kHudMarginBottomPx]
    refine ⟨by norm_num, by linarith, by linarith, by linarith⟩
  · simp only [hudLayout, lineBox, ContainsWithMargin, hH, hG, kHudMarginLeftPx,
      kHudPaddingPx, kHudMarginBottomPx]
    refine ⟨by norm_num, by linarith, by linarith, by linarith⟩
  · simp only [hudLayout, lineBox, ContainsWithMargin, hH, hG, kHudMarginLeftPx,
      kHudPaddingPx, kHudMarginBottomPx]
    refine ⟨by norm_num, by linarith, by linarith, by linarith⟩
  · simp only [hudLayout, kHudMarginLeftPx, kHudPaddingPx]
    ring

/-! ## wrapIndex -/

theorem neg_lt_tmod (i n : Int) (hn : 0 < n) : -n < Int.tmod i n := by
  obtain ⟨k, rfl⟩ := Int.eq_ofNat_of_zero_le (le_of_lt hn)
  have hk : 0 < k := by exact_mod_cast hn
  cases i with
  | ofNat m =>
    have : (0 : Int) ≤ ((m % k : Nat) : Int) := Int.ofNat_nonneg _
    show -(k : Int) < ((m % k : Nat) : Int)
    omega
  | negSucc m =>
    have h := Nat.mod_lt (m + 1) hk
    show -(k : Int) < -(((m + 1) % k : Nat) : Int)
    omega

theorem wrapIndex_eq_emod (i n : Int) (hn : 0 < n) : wrapIndex i n = i % n := by
  have hn' : ¬ n ≤ 0 := by omega
  simp only [wrapIndex, if_neg hn']
  have hdef := Int.tmod_def i n
  have hlt : -n < Int.tmod i n ∧ Int.tmod i n < n :=
    ⟨neg_lt_tmod i n hn, Int.tmod_lt_of_pos i hn⟩
  split
  · next h =>
    have : (Int.tmod i n + n) % n = i % n := by
      rw [hdef]
      have : i - n * i.tdiv n + n = i + n * (1 - i.tdiv n) := by ring
      rw [this, Int.add_mul_emod_self_left]
    rw [← this]
    exact (Int.emod_eq_of_lt (by omega) (by omega)).symm
  · next h =>
    have : (Int.tmod i n) % n = i % n := by
      rw [hdef]
      have : i - n * i.tdiv n = i + n * (- i.tdiv n) := by ring
      rw [this, Int.add_mul_emod_self_left]
    rw [← this]
    exact (Int.emod_eq_of_lt (by omega) (by omega)).symm

/-- C10: for `n > 0`, `wrapIndex i n` lies in `0..n-1`, is congruent to `i` modulo `n`, and is
the only such value, for negative `i` as well; for `n ≤ 0` it is `0`. -/
theorem wrapIndex_spec (i n : Int) :
    (0 < n →
      0 ≤ wrapIndex i n ∧ wrapIndex i n < n ∧ n ∣ (i - wrapIndex i n) ∧
      ∀ r : Int, 0 ≤ r → r < n → n ∣ (i - r) → r = wrapIndex i n) ∧
    (n ≤ 0 → wrapIndex i n = 0) := by
  constructor
  · intro hn
    rw [wrapIndex_eq_emod i n hn]
    refine ⟨Int.emod_nonneg i (by omega), Int.emod_lt_of_pos i hn, ?_, ?_⟩
    · exact Int.dvd_sub_of_emod_eq rfl
    · intro r h0 h1 hd
      have h := Int.emod_emod_of_dvd i (dvd_refl n)
      have hr : i % n = r % n := (Int.emod_eq_emod_iff_emod_sub_eq_zero).2
        (Int.emod_eq_zero_of_dvd hd)
      rw [hr, Int.emod_eq_of_lt h0 h1]
  · intro hn
    simp [wrapIndex, hn]

/-- A use of C10 on a negative index: `wrapIndex(-1, 3)` is `2`. -/
theorem wrapIndex_spec_neg_one : wrapIndex (-1) 3 = 2 ∧
    ∀ r : Int, 0 ≤ r → r < 3 → (3 : Int) ∣ (-1 - r) → r = wrapIndex (-1) 3 :=
  ⟨by decide, ((wrapIndex_spec (-1) 3).1 (by decide)).2.2.2⟩

/-! ## Fuel -/

section Fuel

variable {W : Type} [LinearOrderedAddCommMonoid W]

theorem mainLoop_succ (adj : List (List (Nat × W))) (target : Nat) :
    ∀ (fuel : Nat) (st r : State W),
      mainLoop adj target fuel st = some r → mainLoop adj target (fuel + 1) st = some r := by
  intro fuel
  induction fuel with
  | zero => intro st r h; simp [mainLoop] at h
  | succ f ih =>
    intro st r h
    rw [mainLoop] at h ⊢
    cases hq : st.pq with
    | nil => simpa [hq] using h
    | cons u rest =>
      simp only [hq] at h ⊢
      by_cases hu : u = target
      · simpa [hu] using h
      · simp only [if_neg hu] at h ⊢
        exact ih _ _ h

theorem mainLoop_mono (adj : List (List (Nat × W))) (target : Nat) (st r : State W)
    {fuel fuel' : Nat} (hle : fuel ≤ fuel') (h : mainLoop adj target fuel st = some r) :
    mainLoop adj target fuel' st = some r := by
  induction hle with
  | refl => exact h
  | step _ ih => exact mainLoop_succ adj target _ st r ih

theorem walkParents_succ (parent : Nat → Option Nat) :
    ∀ (fuel : Nat) (cur : Option Nat) (path r : List Nat),
      walkParents parent fuel cur path = some r →
      walkParents parent (fuel + 1) cur path = some r := by
  intro fuel
  induction fuel with
  | zero =>
    intro cur path r h
    cases cur with
    | none => simpa [walkParents] using h
    | some c => simp [walkParents] at h
  | succ f ih =>
    intro cur path r h
    cases cur with
    | none => simpa [walkParents] using h
    | some c =>
      rw [walkParents] at h ⊢
      exact ih _ _ _ h

theorem walkParents_mono (parent : Nat → Option Nat) (cur : Option Nat) (path r : List Nat)
    {fuel fuel' : Nat} (hle : fuel ≤ fuel') (h : walkParents parent fuel cur path = some r) :
    walkParents parent fuel' cur path = some r := by
  induction hle with
  | refl => exact h
  | step _ ih => exact walkParents_succ parent _ cur path r ih

theorem findShortestPath_mono (adj : List (List (Nat × W))) (n start target : Nat)
    (r : List Nat × W) {fuel fuel' : Nat} (hle : fuel ≤ fuel')
    (h : findShortestPath fuel adj n start target = some r) :
    findShortestPath fuel' adj n start target = some r := by
  unfold findShortestPath at h ⊢
  by_cases hst : start = target
  · simpa [hst] using h
  · simp only [if_neg hst] at h ⊢
    cases hm : mainLoop adj target fuel (initState n start) with
    | none => simp [hm] at h
    | some st =>
      rw [mainLoop_mono adj target _ st hle hm]
      simp only [hm] at h
      cases hd : st.dist target with
      | none => simpa [hd] using h
      | some d =>
        simp only [hd] at h ⊢
        cases hw : walkParents st.parent fuel (some target) [] with
        | none => simp [hw] at h
        | some p =>
          rw [walkParents_mono st.parent _ _ p hle hw]
          simpa [hw] using h

/-! ## Lower bounds on path weights -/

theorem Walk.potential_le {adj : List (List (Nat × W))} (h : Nat → W)
    (hfeas : ∀ u v w, (v, w) ∈ adj.getD u [] → h v ≤ h u + w) :
    ∀ {u t : Nat} {d : W}, Walk adj u t d → h t ≤ h u + d := by
  intro u t d hw
  induction hw with
  | nil u => simp
  | @cons u v t w d he _ ih =>
    calc h t ≤ h v + d := ih
      _ ≤ (h u + w) + d := add_le_add_right (hfeas u v w he) d
      _ = h u + (w + d) := add_assoc _ _ _

theorem Walk.append_edge {adj : List (List (Nat × W))} {s u v : Nat} {d w : W}
    (hw : Walk adj s u d) (he : (v, w) ∈ adj.getD u []) : Walk adj s v (d + w) := by
  induction hw with
  | nil u => simpa using Walk.cons he (Walk.nil v)
  | @cons a b t w' d' he' _ ih =>
    have := Walk.cons he' (ih he)
    rwa [← add_assoc] at this

theorem Walk.of_pathWeight {adj : List (List (Nat × W))} :
    ∀ (path : List Nat) (s t : Nat) (d : W),
      (s :: path).getLast (List.cons_ne_nil _ _) = t →
      pathWeight adj (s :: path) = some d → Walk adj s t d := by
  intro path
  induction path with
  | nil =>
    intro s t d hl hp
    simp at hl
    simp [pathWeight] at hp
    subst hl; subst hp
    exact Walk.nil s
  | cons v rest ih =>
    intro s t d hl hp
    rw [List.getLast_cons (List.cons_ne_nil _ _)] at hl
    rw [pathWeight] at hp
    cases he : edgeWeight adj s v with
    | none => simp [he] at hp
    | some w =>
      cases hr : pathWeight adj (v :: rest) with
      | none => simp [he, hr] at hp
      | some d' =>
        simp only [he, hr, Option.some.injEq] at hp
        subst hp
        have hmem : (v, w) ∈ adj.getD s [] := by
          unfold edgeWeight at he
          rw [Option.map_eq_some'] at he
          obtain ⟨⟨v', w'⟩, hf, hw⟩ := he
          have h1 := List.find?_some hf
          have h2 := List.mem_of_find?_eq_some hf
          simp at h1 hw
          subst h1; subst hw
          exact h2
        exact Walk.cons hmem (ih v t d' hl hr)

end Fuel

/-! ## The hardcoded graph -/

set_option maxRecDepth 100000 in
theorem hardcoded_results :
    ∀ s, s < 7 → ∀ e, e < 7 →
      (findShortestPath 16 adjacencyList 7 s e).map (fun r =>
        decide (r.1.head? = some s ∧ r.1.getLast? = some e ∧
          pathWeight adjacencyList r.1 = some r.2)) = some true := by
  decide

set_option maxRecDepth 100000 in
theorem hardcoded_feasible :
    ∀ s, s < 7 → ∀ u, u < 7 → ∀ x ∈ adjacencyList.getD u [],
      ((findShortestPath 16 adjacencyList 7 s x.1).map Prod.snd).getD 0
        ≤ ((findShortestPath 16 adjacencyList 7 s u).map Prod.snd).getD 0 + x.2 := by
  decide

theorem hardcoded_result_path (s e : Nat) (hs : s < 7) (he : e < 7) :
    ∃ (tl : List Nat) (d : Nat),
      findShortestPath 16 adjacencyList 7 s e = some (s :: tl, d) ∧
      (s :: tl).getLast (List.cons_ne_nil _ _) = e ∧
      pathWeight adjacencyList (s :: tl) = some d := by
  have h := hardcoded_results s hs e he
  cases hr : findShortestPath 16 adjacencyList 7 s e with
  | none => simp [hr] at h
  | some r =>
    obtain ⟨p, d⟩ := r
    simp only [hr, Option.map_some', Option.some.injEq, decide_eq_true_eq] at h
    obtain ⟨h1, h2, h3⟩ := h
    cases p with
    | nil => simp at h1
    | cons a tl =>
      simp only [List.head?_cons, Option.some.injEq] at h1
      subst h1
      refine ⟨tl, d, rfl, ?_, h3⟩
      rw [List.getLast?_eq_getLast _ (List.cons_ne_nil _ _)] at h2
      exact Option.some.inj h2

theorem hardcoded_lower_bound (s e : Nat) (hs : s < 7) (d d' : Nat) (p : List Nat)
    (hr : findShortestPath 16 adjacencyList 7 s e = some (p, d))
    (hw : Walk adjacencyList s e d') : d ≤ d' := by
  have hfeas : ∀ u v w, (v, w) ∈ adjacencyList.getD u [] →
      ((findShortestPath 16 adjacencyList 7 s v).map Prod.snd).getD 0
        ≤ ((findShortestPath 16 adjacencyList 7 s u).map Prod.snd).getD 0 + w := by
    intro u v w hmem
    by_cases hu : u < 7
    · exact hardcoded_feasible s hs u hu (v, w) hmem
    · have hlen : adjacencyList.length = 7 := by decide
      have : adjacencyList.getD u [] = [] := by
        rw [List.getD_eq_getElem?_getD, List.getElem?_eq_none (by omega)]
        rfl
      rw [this] at hmem
      simp at hmem
  have h := Walk.potential_le
    (fun v => ((findShortestPath 16 adjacencyList 7 s v).map Prod.snd).getD 0) hfeas hw
  have hss : findShortestPath 16 adjacencyList 7 s s = some ([s], 0) := by
    simp [findShortestPath]
  simpa [hr, hss] using h

/-- C1: on the hardcoded graph, for all node indices `start`, `end` in `0..6`,
`findShortestPath` returns (its loops finish within 16 iterations) and the distance returned is
the minimum total edge weight over all paths from `start` to `end`; it is `0` when
`start = end`. -/
theorem findShortestPath_hardcoded_minimum (s e : Nat) (hs : s < 7) (he : e < 7)
    (fuel : Nat) (hfuel : 16 ≤ fuel) :
    ∃ (path : List Nat) (d : Nat),
      findShortestPath fuel adjacencyList 7 s e = some (path, d) ∧
      IsMinDist adjacencyList s e d ∧ (s = e → d = 0) := by
  obtain ⟨tl, d, hr, hlast, hpw⟩ := hardcoded_result_path s e hs he
  refine ⟨s :: tl, d, findShortestPath_mono _ _ _ _ _ hfuel hr, ⟨?_, ?_⟩, ?_⟩
  · exact Walk.of_pathWeight tl s e d hlast hpw
  · intro d' hw
    exact hardcoded_lower_bound s e hs d d' _ hr hw
  · intro hse
    subst hse
    have hss : findShortestPath 16 adjacencyList 7 s s = some ([s], 0) := by
      simp [findShortestPath]
    rw [hss] at hr
    simp only [Option.some.injEq, Prod.mk.injEq] at hr
    exact hr.2.symm

/-- C1 at Rajshahi (5) to Barishal (6): the route is `5, 2, 3, 6` of length 940, and 940 is
the minimum over all paths. -/
theorem findShortestPath_hardcoded_minimum_5_6 :
    findShortestPath 16 adjacencyList 7 5 6 = some ([5, 2, 3, 6], 940) ∧
    IsMinDist adjacencyList 5 6 940 := by
  obtain ⟨path, d, hr, hmin, _⟩ :=
    findShortestPath_hardcoded_minimum 5 6 (by decide) (by decide) 16 (le_refl _)
  have hv : findShortestPath 16 adjacencyList 7 5 6 = some ([5, 2, 3, 6], 940) := by decide
  rw [hv] at hr
  simp only [Option.some.injEq, Prod.mk.injEq] at hr
  rw [← hr.2] at hmin
  exact ⟨hv, hmin⟩

/-- C4: on the hardcoded graph, for node indices `start`, `end` in `0..6` (distinct or not),
the path returned is non-empty and the distance returned is the sum of the weights of the
edges joining its consecutive nodes. -/
theorem findShortestPath_hardcoded_distance_is_path_weight (s e : Nat) (hs : s < 7)
    (he : e < 7) (fuel : Nat) (hfuel : 16 ≤ fuel) :
    ∃ (path : List Nat) (d : Nat),
      findShortestPath fuel adjacencyList 7 s e = some (path, d) ∧
      path ≠ [] ∧ pathWeight adjacencyList path = some d := by
  obtain ⟨tl, d, hr, _, hpw⟩ := hardcoded_result_path s e hs he
  exact ⟨s :: tl, d, findShortestPath_mono _ _ _ _ _ hfuel hr, List.cons_ne_nil _ _, hpw⟩

/-- C4 at Rangpur (0) to Barishal (6): the route `0, 4, 3, 6` has weight
`294 + 257 + 243 = 794`, the distance returned. -/
theorem findShortestPath_hardcoded_distance_0_6 :
    findShortestPath 16 adjacencyList 7 0 6 = some ([0, 4, 3, 6], 794) ∧
    pathWeight adjacencyList [0, 4, 3, 6] = some 794 := by
  obtain ⟨path, d, hr, _, hpw⟩ :=
    findShortestPath_hardcoded_distance_is_path_weight 0 6 (by decide) (by decide)
      16 (le_refl _)
  have hv : findShortestPath 16 adjacencyList 7 0 6 = some ([0, 4, 3, 6], 794) := by decide
  rw [hv] at hr
  simp only [Option.some.injEq, Prod.mk.injEq] at hr
  rw [← hr.1, ← hr.2] at hpw
  exact ⟨hv, hpw⟩

/-! ## Trip statistics of a route on the hardcoded graph -/

/-- C7: the statistics shown for a path of total distance `d` are `d / 50` hours and
`3.2 * d` BDT; for an integer distance `k` the distance text is the decimal numeral of `k`
followed by `KM`, and every distance `findShortestPath` returns on the hardcoded graph is
such an integer. -/
theorem pathInfo_statistics (d : ℚ) :
    hours d = d / 50 ∧ cost d = (16 / 5) * d ∧
    (∀ k : Nat, d = (k : ℚ) → distTxt d = toString k ++ "KM") ∧
    (∀ s e fuel, s < 7 → e < 7 → 16 ≤ fuel →
      ∃ (path : List Nat) (k : Nat),
        findShortestPath fuel adjacencyList 7 s e = some (path, k) ∧
        distTxt (k : ℚ) = toString k ++ "KM") := by
  refine ⟨?_, ?_, ?_, ?_⟩
  · simp [hours, kSpeedUnitsPerHour]
  · simp [cost, kCostPerUnit, mul_comm]
  · intro k hk
    subst hk
    simp [distTxt, roundHalfAway_natCast, toString]
  · intro s e fuel hs he hfuel
    obtain ⟨tl, k, hr, _, _⟩ := hardcoded_result_path s e hs he
    exact ⟨s :: tl, k, findShortestPath_mono _ _ _ _ _ hfuel hr,
      by simp [distTxt, roundHalfAway_natCast, toString]⟩

/-! ## A graph on which the queue pops a node too early -/

section HeapPerm

open List

theorem set_perm_cons_eraseIdx (l : List Nat) (j : Nat) (b : Nat) (hj : j < l.length) :
    l.set j b ~ b :: l.eraseIdx j := by
  induction l generalizing j with
  | nil => simp at hj
  | cons h t ih =>
    cases j with
    | zero => simp
    | succ j =>
      simp only [List.set_cons_succ, List.eraseIdx_cons_succ]
      have := ih j (by simpa using hj)
      exact (Perm.cons h this).trans (Perm.swap b h _)

theorem perm_set_set (l : List Nat) (i j a b : Nat) (hi : i < l.length) (hj : j < l.length)
    (hij : i ≠ j) : (l.set i a).set j b ~ (l.set i b).set j a := by
  induction l generalizing i j with
  | nil => simp at hi
  | cons h t ih =>
    cases i with
    | zero =>
      cases j with
      | zero => exact absurd rfl hij
      | succ j =>
        simp only [List.set_cons_zero, List.set_cons_succ]
        have hj' : j < t.length := by simpa using hj
        exact ((Perm.cons a (set_perm_cons_eraseIdx t j b hj')).trans (Perm.swap b a _)).trans
          (Perm.cons b (set_perm_cons_eraseIdx t j a hj').symm)
    | succ i =>
      cases j with
      | zero =>
        simp only [List.set_cons_zero, List.set_cons_succ]
        have hi' : i < t.length := by simpa using hi
        exact ((Perm.cons b (set_perm_cons_eraseIdx t i a hi')).trans (Perm.swap a b _)).trans
          (Perm.cons a (set_perm_cons_eraseIdx t i b hi').symm)
      | succ j =>
        simp only [List.set_cons_succ]
        exact Perm.cons h (ih i j (by simpa using hi) (by simpa using hj) (by omega))

/-- Moving the hole: storing `l[j]` in the hole `i` and making `j` the hole keeps the
contents, whatever value fills the hole in the end. -/
theorem perm_move_hole (l : List Nat) (i j x : Nat) (hi : i < l.length) (hj : j < l.length)
    (hij : i ≠ j) : (l.set i (l.getD j 0)).set j x ~ l.set i x := by
  have h1 := perm_set_set l i j (l.getD j 0) x hi hj hij
  have h2 : (l.set i x).set j (l.getD j 0) = l.set i x := by
    apply List.ext_getElem
    · simp
    · intro k hk1 hk2
      simp only [List.getElem_set]
      by_cases hjk : j = k
      · subst hjk
        simp [List.getElem?_eq_getElem hj, hij]
      · simp [hjk]
  rw [h2] at h1
  exact h1

section Heap

variable {W : Type} [LinearOrderedAddCommMonoid W]

theorem pushHeapLoop_perm (dist : Nat → Option W) :
    ∀ (fuel : Nat) (q : List Nat) (hole top value : Nat), hole < q.length →
      pushHeapLoop dist fuel q hole top value ~ q.set hole value := by
  intro fuel
  induction fuel with
  | zero => intro q hole top value _; exact Perm.refl _
  | succ f ih =>
    intro q hole top value hh
    rw [pushHeapLoop]
    split
    · next hc =>
      have hpos : 0 < hole := by omega
      have hp : (hole - 1) / 2 < hole := by omega
      have h1 := ih (q.set hole (q.getD ((hole - 1) / 2) 0)) ((hole - 1) / 2) top value
        (by simp; omega)
      exact h1.trans (perm_move_hole q hole ((hole - 1) / 2) value hh (by omega) (by omega))
    · exact Perm.refl _

theorem pushHeapLoop_length (dist : Nat → Option W) :
    ∀ (fuel : Nat) (q : List Nat) (hole top value : Nat),
      (pushHeapLoop dist fuel q hole top value).length = q.length := by
  intro fuel
  induction fuel with
  | zero => intro q hole top value; simp [pushHeapLoop]
  | succ f ih =>
    intro q hole top value
    rw [pushHeapLoop]
    split
    · rw [ih]; simp
    · simp

theorem pushHeapLoop_above (dist : Nat → Option W) :
    ∀ (fuel : Nat) (q : List Nat) (hole top value k : Nat), hole < k →
      (pushHeapLoop dist fuel q hole top value)[k]? = q[k]? := by
  intro fuel
  induction fuel with
  | zero =>
    intro q hole top value k hk
    simp [pushHeapLoop, List.getElem?_set]
    omega
  | succ f ih =>
    intro q hole top value k hk
    rw [pushHeapLoop]
    split
    · rw [ih _ _ _ _ k (by omega)]
      simp [List.getElem?_set]
      omega
    · simp [List.getElem?_set]
      omega

theorem pqPush_perm (dist : Nat → Option W) (q : List Nat) (v : Nat) :
    pqPush dist q v ~ v :: q := by
  unfold pqPush pushHeap
  have hlen : (q ++ [v]).length - 1 < (q ++ [v]).length := by simp
  have h := pushHeapLoop_perm dist ((q ++ [v]).length - 1) (q ++ [v]) ((q ++ [v]).length - 1) 0
    ((q ++ [v]).getD ((q ++ [v]).length - 1) 0) hlen
  have hset : (q ++ [v]).set ((q ++ [v]).length - 1)
      ((q ++ [v]).getD ((q ++ [v]).length - 1) 0) = q ++ [v] := by
    apply List.ext_getElem
    · simp
    · intro k hk1 hk2
      simp only [List.getElem_set]
      split
      · next hk => subst hk; simp [List.getElem?_eq_getElem hlen]
      · rfl
  rw [hset] at h
  exact h.trans (perm_append_singleton v q)

theorem adjustLoop_spec (dist : Nat → Option W) (len : Nat) :
    ∀ (fuel : Nat) (q : List Nat) (hole : Nat), hole < len → len ≤ q.length →
      (adjustLoop dist len fuel q hole).2 < len ∧
      (adjustLoop dist len fuel q hole).1.length = q.length ∧
      (∀ k, len ≤ k → (adjustLoop dist len fuel q hole).1[k]? = q[k]?) ∧
      (∀ x, (adjustLoop dist len fuel q hole).1.set (adjustLoop dist len fuel q hole).2 x
        ~ q.set hole x) := by
  intro fuel
  induction fuel with
  | zero =>
    intro q hole hh hl
    rw [adjustLoop]
    exact ⟨hh, rfl, fun _ _ => rfl, fun _ => Perm.refl _⟩
  | succ f ih =>
    intro q hole hh hl
    rw [adjustLoop]
    split
    · next hc =>
      have hsec : 2 * (hole + 1) < len := by omega
      dsimp only
      generalize hchild : (if cmp dist (q.getD (2 * (hole + 1)) 0)
        (q.getD (2 * (hole + 1) - 1) 0) = true then 2 * (hole + 1) - 1 else 2 * (hole + 1))
        = child
      have hchild1 : hole < child ∧ child < len := by
        rw [← hchild]; split <;> omega
      obtain ⟨i1, i2, i3, i4⟩ := ih (q.set hole (q.getD child 0)) child hchild1.2
        (by simpa using hl)
      refine ⟨i1, by simpa using i2, ?_, ?_⟩
      · intro k hk
        rw [i3 k hk]
        simp [List.getElem?_set]
        omega
      · intro x
        exact (i4 x).trans (perm_move_hole q hole child x (by omega) (by omega) (by omega))
    · exact ⟨hh, rfl, fun _ _ => rfl, fun _ => Perm.refl _⟩

theorem set_getD_self (q : List Nat) (i : Nat) : q.set i (q.getD i 0) = q := by
  apply List.ext_getElem
  · simp
  · intro k hk1 hk2
    simp only [List.getElem_set]
    split
    · next hk => subst hk; simp [List.getElem?_eq_getElem hk2]
    · rfl

theorem adjustHeap_spec (dist : Nat → Option W) (q : List Nat) (len value : Nat)
    (h0 : 0 < len) (hl : len < q.length) :
    adjustHeap dist q len value ~ q.set 0 value ∧
    (adjustHeap dist q len value).length = q.length ∧
    (adjustHeap dist q len value)[len]? = q[len]? := by
  obtain ⟨i1, i2, i3, i4⟩ := adjustLoop_spec dist len len q 0 h0 (le_of_lt hl)
  unfold adjustHeap
  dsimp only
  generalize adjustLoop dist len len q 0 = r at i1 i2 i3 i4
  obtain ⟨q1, hole⟩ := r
  simp only at i1 i2 i3 i4
  split
  · next hc =>
    have hs : 2 * (hole + 1) - 1 = len - 1 := by omega
    have hlt : 2 * (hole + 1) - 1 < q1.length := by omega
    refine ⟨?_, ?_, ?_⟩
    · have h1 := pushHeapLoop_perm dist (2 * (hole + 1) - 1)
        (q1.set hole (q1.getD (2 * (hole + 1) - 1) 0)) (2 * (hole + 1) - 1) 0 value
        (by simpa using hlt)
      exact (h1.trans (perm_move_hole q1 hole (2 * (hole + 1) - 1) value (by omega) hlt
        (by omega))).trans (i4 value)
    · rw [pushHeapLoop_length]; simpa using i2
    · rw [pushHeapLoop_above dist _ _ _ _ _ len (by omega), List.getElem?_set,
        if_neg (by omega), i3 len (le_refl _)]
  · refine ⟨?_, ?_, ?_⟩
    · exact (pushHeapLoop_perm dist hole q1 hole 0 value (by omega)).trans (i4 value)
    · rw [pushHeapLoop_length]; exact i2
    · rw [pushHeapLoop_above dist _ _ _ _ _ len i1, i3 len (le_refl _)]

theorem pqPop_perm (dist : Nat → Option W) (u : Nat) (rest : List Nat) :
    pqPop dist (u :: rest) ~ rest := by
  unfold pqPop popHeap
  cases rest with
  | nil => simp
  | cons b t =>
    have hlen : (u :: b :: t).length > 1 := by simp
    rw [if_pos hlen]
    dsimp only
    have hlast : (u :: b :: t).length - 1 = t.length + 1 := by simp
    rw [hlast]
    have hq0 : (u :: b :: t).getD 0 0 = u := rfl
    rw [hq0]
    obtain ⟨p1, p2, p3⟩ := adjustHeap_spec dist ((u :: b :: t).set (t.length + 1) u)
      (t.length + 1) ((u :: b :: t).getD (t.length + 1) 0) (by omega) (by simp)
    generalize adjustHeap dist ((u :: b :: t).set (t.length + 1) u) (t.length + 1)
      ((u :: b :: t).getD (t.length + 1) 0) = res at p1 p2 p3
    have hperm : res ~ u :: b :: t := by
      refine p1.trans ?_
      have h := perm_move_hole (u :: b :: t) (t.length + 1) 0
        ((u :: b :: t).getD (t.length + 1) 0) (by simp) (by simp) (by omega)
      rw [hq0, set_getD_self] at h
      exact h
    have hlen2 : res.length = t.length + 2 := by simpa using p2
    have hne : res ≠ [] := by
      intro h; rw [h] at hlen2; simp at hlen2
    have hgl : res.getLast hne = u := by
      rw [List.getLast_eq_getElem]
      have h1 : res.length - 1 = t.length + 1 := by omega
      have h2 : res[t.length + 1]? = some u := by
        rw [p3]; simp [List.getElem?_set]
      have h3 := List.getElem?_eq_some.1 h2
      obtain ⟨_, h4⟩ := h3
      simpa [h1] using h4
    have hsplit : res = res.dropLast ++ [u] := by
      rw [← hgl]; exact (List.dropLast_append_getLast hne).symm
    rw [hsplit] at hperm
    exact ((perm_append_singleton u res.dropLast).symm.trans hperm).cons_inv

/-- With fuel at least the hole index, `pushHeapLoop` stops because its loop condition fails:
more fuel does not change the result. -/
theorem pushHeapLoop_fuel (dist : Nat → Option W) :
    ∀ (fuel : Nat) (q : List Nat) (hole top value : Nat), hole ≤ fuel →
      pushHeapLoop dist (fuel + 1) q hole top value = pushHeapLoop dist fuel q hole top value := by
  intro fuel
  induction fuel with
  | zero =>
    intro q hole top value h
    have h0 : hole = 0 := by omega
    subst h0
    simp [pushHeapLoop]
  | succ f ih =>
    intro q hole top value h
    conv_lhs => rw [pushHeapLoop]
    conv_rhs => rw [pushHeapLoop]
    split
    · next hc =>
      exact ih _ _ _ _ (by omega)
    · rfl

/-- With fuel at least `len - hole`, `adjustLoop` stops because its loop condition fails: more
fuel does not change the result. -/
theorem adjustLoop_fuel (dist : Nat → Option W) (len : Nat) :
    ∀ (fuel : Nat) (q : List Nat) (hole : Nat), len ≤ hole + fuel →
      adjustLoop dist len (fuel + 1) q hole = adjustLoop dist len fuel q hole := by
  intro fuel
  induction fuel with
  | zero =>
    intro q hole h
    have : ¬ hole < (len - 1) / 2 := by omega
    simp [adjustLoop, this]
  | succ f ih =>
    intro q hole h
    conv_lhs => rw [adjustLoop]
    conv_rhs => rw [adjustLoop]
    split
    · next hc =>
      dsimp only
      split
      · exact ih _ _ (by omega)
      · exact ih _ _ (by omega)
    · rfl

end Heap

end HeapPerm

/-! ## The loop keeps its invariants and terminates -/

section InvariantProofs

variable {W : Type} [LinearOrderedAddCommMonoid W]

theorem ltD_some_iff (a : W) (x : Option W) :
    ltD (some a) x = true ↔ x = none ∨ ∃ b, x = some b ∧ a < b := by
  cases x with
  | none => simp [ltD]
  | some b => simp [ltD]

theorem ltD_some_false_iff (a : W) (x : Option W) :
    ¬ ltD (some a) x = true ↔ ∃ b, x = some b ∧ b ≤ a := by
  cases x with
  | none => simp [ltD]
  | some b => simp [ltD]

theorem NonNeg.of_mem {adj : List (List (Nat × W))} (hn : NonNeg adj) {u : Nat}
    {e : Nat × W} (he : e ∈ adj.getD u []) : 0 ≤ e.2 := by
  rw [List.getD_eq_getElem?_getD] at he
  cases h : adj[u]? with
  | none => simp [h] at he
  | some l =>
    simp only [h, Option.getD_some] at he
    exact hn l (List.getElem?_mem h) e he

theorem Anc.dist_le {adj : List (List (Nat × W))} {n start : Nat} {st : State W}
    (hn : NonNeg adj) (hc : Core adj n start st) {a b : Nat} (h : Anc st.parent a b) :
    ∀ da, st.dist a = some da → ∃ db, st.dist b = some db ∧ db ≤ da := by
  induction h with
  | refl => intro da hda; exact ⟨da, hda, le_refl _⟩
  | tail _ hbc ih =>
    intro da hda
    obtain ⟨db, hdb, hle⟩ := ih da hda
    obtain ⟨_, _, w, dp, dx, hmem, hp, hx, hsum⟩ := hc.edge _ _ hbc
    have hw : 0 ≤ w := hn.of_mem hmem
    rw [hdb] at hx
    cases hx
    exact ⟨dp, hp, le_trans (le_trans (le_add_of_nonneg_right hw) hsum) hle⟩

theorem Anc.assign_of_avoid {parent : Nat → Option Nat} {a b v : Nat} (q : Option Nat)
    (h : Anc parent a b) (hav : ¬ Anc parent a v) : Anc (assign parent v q) a b := by
  induction h using Relation.ReflTransGen.head_induction_on with
  | refl => exact Relation.ReflTransGen.refl
  | @head x y hstep hrest ih =>
    have hxv : x ≠ v := by
      intro hxv; subst hxv; exact hav Relation.ReflTransGen.refl
    have hy : ¬ Anc parent y v := fun hyv => hav (Relation.ReflTransGen.head hstep hyv)
    refine Relation.ReflTransGen.head ?_ (ih hy)
    show assign parent v q x = some y
    simp [assign, hxv, hstep]

theorem Anc.assign_to {parent : Nat → Option Nat} {a v : Nat} (q : Option Nat)
    (h : Anc parent a v) : Anc (assign parent v q) a v := by
  induction h using Relation.ReflTransGen.head_induction_on with
  | refl => exact Relation.ReflTransGen.refl
  | @head x y hstep hrest ih =>
    by_cases hxv : x = v
    · subst hxv; exact Relation.ReflTransGen.refl
    · refine Relation.ReflTransGen.head ?_ ih
      show assign parent v q x = some y
      simp [assign, hxv, hstep]

theorem relax_improve_facts {adj : List (List (Nat × W))} {n start : Nat} {st : State W}
    (hn : NonNeg adj) (hc : Core adj n start st) {u : Nat} {du : W}
    (hdu : st.dist u = some du) {e : Nat × W} (he : e ∈ adj.getD u [])
    (hlt : ltD (addD (st.dist u) e.2) (st.dist e.1) = true) :
    e.1 < n ∧ e.1 ≠ start ∧ e.1 ≠ u ∧
    (st.dist e.1 = none ∨ ∃ dv, st.dist e.1 = some dv ∧ du + e.2 < dv) := by
  have hw : 0 ≤ e.2 := hn.of_mem he
  have hdu0 : 0 ≤ du := hc.nonneg u du hdu
  rw [hdu] at hlt
  have hcases := (ltD_some_iff (du + e.2) (st.dist e.1)).1 hlt
  have key : ∀ d, st.dist e.1 = some d → d ≤ du + e.2 → False := by
    intro d hd hle
    rcases hcases with h | ⟨dv, h, hlt'⟩
    · rw [h] at hd; cases hd
    · rw [h] at hd; cases hd
      exact absurd hlt' (not_lt.2 hle)
  refine ⟨?_, ?_, ?_, hcases⟩
  · by_contra hv
    exact key 0 (hc.out _ (not_lt.1 hv)) (add_nonneg hdu0 hw)
  · intro hv
    exact key 0 (hv ▸ hc.start_dist) (add_nonneg hdu0 hw)
  · intro hv
    exact key du (hv ▸ hdu) (le_add_of_nonneg_right hw)

theorem relax_eq_of_improve {st : State W} {u : Nat} {e : Nat × W}
    (hlt : ltD (addD (st.dist u) e.2) (st.dist e.1) = true) :
    relax u st e =
      { dist := assign st.dist e.1 (addD (st.dist u) e.2)
        parent := assign st.parent e.1 (some u)
        pq := pqPush (assign st.dist e.1 (addD (st.dist u) e.2)) st.pq e.1 } := by
  simp [relax, hlt]

theorem relax_eq_of_not_improve {st : State W} {u : Nat} {e : Nat × W}
    (hlt : ¬ ltD (addD (st.dist u) e.2) (st.dist e.1) = true) : relax u st e = st := by
  simp [relax, hlt]

theorem Core.relax_core {adj : List (List (Nat × W))} {n start : Nat} {st : State W}
    (hn : NonNeg adj) (hc : Core adj n start st) {u : Nat} (hu : u < n) {du : W}
    (hdu : st.dist u = some du) {e : Nat × W} (he : e ∈ adj.getD u []) :
    Core adj n start (relax u st e) := by
  by_cases hlt : ltD (addD (st.dist u) e.2) (st.dist e.1) = true
  swap
  · rw [relax_eq_of_not_improve hlt]; exact hc
  obtain ⟨hvn, hvs, hvu, hold⟩ := relax_improve_facts hn hc hdu he hlt
  have hw : 0 ≤ e.2 := hn.of_mem he
  rw [relax_eq_of_improve hlt, hdu]
  have hav : ¬ Anc st.parent u e.1 := by
    intro h
    obtain ⟨dv, hdv, hle⟩ := h.dist_le hn hc du hdu
    rcases hold with h0 | ⟨dv', h1, h2⟩
    · rw [h0] at hdv; cases hdv
    · rw [h1] at hdv; cases hdv
      exact absurd (lt_of_le_of_lt (le_add_of_nonneg_right hw) h2) (not_lt.2 hle)
  have hanc_v : Anc (assign st.parent e.1 (some u)) e.1 start := by
    refine Relation.ReflTransGen.head ?_
      ((hc.anc u hu (by rw [hdu]; simp)).assign_of_avoid (some u) hav)
    simp [assign]
  constructor
  · intro x hx
    have : x ≠ e.1 := by omega
    simp only [assign, addD, if_neg this]
    exact hc.out x hx
  · intro x d hd
    simp only [assign, addD] at hd
    split at hd
    · cases hd
      exact add_nonneg (hc.nonneg u du hdu) hw
    · exact hc.nonneg x d hd
  · simp only [assign, addD, if_neg (Ne.symm hvs)]
    exact hc.start_dist
  · simp only [assign, if_neg (Ne.symm hvs)]
    exact hc.start_parent
  · intro x p hp
    simp only [assign] at hp ⊢
    by_cases hx : x = e.1
    · simp only [hx, if_true, Option.some.injEq] at hp
      subst hp
      refine ⟨hx ▸ hvn, hu, e.2, du, du + e.2, ?_, ?_, ?_, le_refl _⟩
      · rw [hx]; exact he
      · simp only [if_neg (Ne.symm hvu)]; exact hdu
      · simp [hx, addD]
    · simp only [if_neg hx] at hp
      obtain ⟨h1, h2, w', dp, dx, hmem, hdp, hdx, hsum⟩ := hc.edge x p hp
      by_cases hpv : p = e.1
      · refine ⟨h1, h2, w', du + e.2, dx, hmem, by simp [hpv, addD], by simp [hx, hdx], ?_⟩
        rcases hold with h0 | ⟨dv, hdv, hlt'⟩
        · rw [← hpv, hdp] at h0; cases h0
        · rw [← hpv, hdp] at hdv; cases hdv
          exact le_trans (add_le_add_right (le_of_lt hlt') w') hsum
      · exact ⟨h1, h2, w', dp, dx, hmem, by simp [hpv, hdp], by simp [hx, hdx], hsum⟩
  · intro x hx hxs hd
    simp only [assign] at hd ⊢
    by_cases hxv : x = e.1
    · simp [hxv]
    · simp only [if_neg hxv] at hd ⊢
      exact hc.has_parent x hx hxs hd
  · intro x hx hd
    simp only [assign] at hd
    by_cases hxv : x = e.1
    · rw [hxv]; exact hanc_v
    · simp only [if_neg hxv] at hd
      have hold_anc := hc.anc x hx hd
      by_cases hthru : Anc st.parent x e.1
      · exact (hthru.assign_to (some u)).trans hanc_v
      · exact hold_anc.assign_of_avoid (some u) hthru

theorem Wit.dominated {adj : List (List (Nat × W))} {n s : Nat} {dist : Nat → Option W}
    (hn : NonNeg adj) (hs : dist s = some 0) {vis : List Nat} {ws : List W} {u : Nat} {d : W}
    (h : Wit adj n dist s vis ws u d) : ∀ x ∈ vis, ∃ dx, dist x = some dx ∧ dx ≤ d := by
  induction h with
  | base =>
    intro x hx
    simp only [List.mem_singleton] at hx
    subst hx
    exact ⟨0, hs, le_refl _⟩
  | @step vis ws u v d w _ hmem _ _ hdom ih =>
    intro x hx
    have hw : 0 ≤ w := hn.of_mem hmem
    rcases List.mem_cons.1 hx with hxv | hxv
    · subst hxv; exact hdom
    · obtain ⟨dx, h1, h2⟩ := ih x hxv
      exact ⟨dx, h1, le_trans h2 (le_add_of_nonneg_right hw)⟩

theorem Wit.mono {adj : List (List (Nat × W))} {n s : Nat} {dist dist' : Nat → Option W}
    (hle : ∀ x dx, dist x = some dx → ∃ dx', dist' x = some dx' ∧ dx' ≤ dx)
    {vis : List Nat} {ws : List W} {u : Nat} {d : W}
    (h : Wit adj n dist s vis ws u d) : Wit adj n dist' s vis ws u d := by
  induction h with
  | base => exact Wit.base
  | @step vis ws u v d w _ hmem hv hnot hdom ih =>
    obtain ⟨dv, h1, h2⟩ := hdom
    obtain ⟨dv', h3, h4⟩ := hle v dv h1
    exact Wit.step ih hmem hv hnot ⟨dv', h3, le_trans h4 h2⟩

theorem Wit.shape {adj : List (List (Nat × W))} {n s : Nat} {dist : Nat → Option W}
    (hs : s < n) {vis : List Nat} {ws : List W} {u : Nat} {d : W}
    (h : Wit adj n dist s vis ws u d) :
    ws.length + 1 = vis.length ∧ vis.Nodup ∧ (∀ x ∈ vis, x < n) ∧
    (∀ w ∈ ws, w ∈ adj.flatten.map Prod.snd) ∧ d = ws.sum := by
  induction h with
  | base => simp [hs]
  | @step vis ws u v d w _ hmem hv hnot _ ih =>
    obtain ⟨h1, h2, h3, h4, h5⟩ := ih
    refine ⟨by simp [h1], List.nodup_cons.2 ⟨hnot, h2⟩, ?_, ?_, ?_⟩
    · intro x hx
      rcases List.mem_cons.1 hx with hxv | hxv
      · subst hxv; exact hv
      · exact h3 x hxv
    · intro w' hw'
      rcases List.mem_cons.1 hw' with hww | hww
      · subst hww
        have hl : adj.getD u [] ∈ adj := by
          rw [List.getD_eq_getElem?_getD] at hmem ⊢
          cases hq : adj[u]? with
          | none => simp [hq] at hmem
          | some l => simpa [hq] using List.getElem?_mem hq
        exact List.mem_map.2 ⟨(v, w'), List.mem_flatten.2 ⟨_, hl, hmem⟩, rfl⟩
      · exact h4 w' hww
    · rw [List.sum_cons, h5, add_comm]

theorem nodup_length_le (l : List Nat) (n : Nat) (hnd : l.Nodup) (hb : ∀ x ∈ l, x < n) :
    l.length ≤ n := by
  have h1 : l.toFinset.card = l.length := List.toFinset_card_of_nodup hnd
  have h2 : l.toFinset ⊆ Finset.range n := by
    intro x hx
    exact Finset.mem_range.2 (hb x (List.mem_toFinset.1 hx))
  have h3 := Finset.card_le_card h2
  rw [Finset.card_range] at h3
  omega

theorem exists_covers (adj : List (List (Nat × W))) (n : Nat) : ∃ T : Finset W, Covers adj n T := by
  classical
  let S : Finset W := (adj.flatten.map Prod.snd).toFinset
  have hfin : {l : List S | l.length < n}.Finite := List.finite_length_lt S n
  have himg : ((fun l : List S => (l.map Subtype.val).sum) '' {l : List S | l.length < n}).Finite :=
    hfin.image _
  refine ⟨himg.toFinset, ?_⟩
  intro ws hlen hmem
  rw [Set.Finite.mem_toFinset]
  refine ⟨ws.attach.map (fun w => ⟨w.1, List.mem_toFinset.2 (hmem w.1 w.2)⟩), ?_, ?_⟩
  · simp [hlen]
  · simp [List.map_map, Function.comp_def]

theorem Wit.mem_covers {adj : List (List (Nat × W))} {n s : Nat} {dist : Nat → Option W}
    (hs : s < n) {T : Finset W} (hT : Covers adj n T) {vis : List Nat} {ws : List W} {u : Nat}
    {d : W} (h : Wit adj n dist s vis ws u d) : d ∈ T := by
  obtain ⟨h1, h2, h3, h4, h5⟩ := h.shape hs
  have := nodup_length_le vis n h2 h3
  rw [h5]
  exact hT ws (by omega) h4

theorem Ghost.relax_ghost {adj : List (List (Nat × W))} {n start : Nat} {st : State W}
    (hn : NonNeg adj) (hc : Core adj n start st) (hg : Ghost adj n start st.dist)
    {u : Nat} (hu : u < n) {du : W} (hdu : st.dist u = some du) {e : Nat × W}
    (he : e ∈ adj.getD u []) :
    Ghost adj n start (relax u st e).dist := by
  by_cases hlt : ltD (addD (st.dist u) e.2) (st.dist e.1) = true
  swap
  · rw [relax_eq_of_not_improve hlt]
    exact hg
  obtain ⟨hvn, hvs, hvu, hold⟩ := relax_improve_facts hn hc hdu he hlt
  have hw : 0 ≤ e.2 := hn.of_mem he
  rw [relax_eq_of_improve hlt, hdu]
  simp only [addD]
  have hmono : ∀ x dx, st.dist x = some dx →
      ∃ dx', assign st.dist e.1 (some (du + e.2)) x = some dx' ∧ dx' ≤ dx := by
    intro x dx hx
    simp only [assign]
    by_cases hxv : x = e.1
    · rw [if_pos hxv]
      refine ⟨_, rfl, ?_⟩
      rcases hold with h0 | ⟨dv, h1, h2⟩
      · rw [← hxv, hx] at h0; cases h0
      · rw [← hxv, hx] at h1; cases h1
        exact le_of_lt h2
    · rw [if_neg hxv]
      exact ⟨dx, hx, le_refl _⟩
  obtain ⟨vis, ws, hwit⟩ := hg u du hu hdu
  have hnot : e.1 ∉ vis := by
    intro hmem
    obtain ⟨dx, h1, h2⟩ := hwit.dominated hn hc.start_dist e.1 hmem
    rcases hold with h0 | ⟨dv, h3, h4⟩
    · rw [h0] at h1; cases h1
    · rw [h3] at h1; cases h1
      exact absurd (lt_of_le_of_lt (le_add_of_nonneg_right hw) h4) (not_lt.2 h2)
  have hnew : Wit adj n (assign st.dist e.1 (some (du + e.2))) start (e.1 :: vis) (e.2 :: ws)
      e.1 (du + e.2) :=
    Wit.step (hwit.mono hmono) he hvn hnot ⟨du + e.2, by simp [assign], le_refl _⟩
  intro y d hy hd
  simp only [assign] at hd
  by_cases hyv : y = e.1
  · rw [if_pos hyv] at hd
    cases hd
    rw [hyv]
    exact ⟨_, _, hnew⟩
  · rw [if_neg hyv] at hd
    obtain ⟨vis', ws', hw'⟩ := hg y d hy hd
    exact ⟨vis', ws', hw'.mono hmono⟩

theorem slack_assign_lt (T : Finset W) (n : Nat) (dist : Nat → Option W) (v : Nat) (d' : W)
    (hv : v < n) (hT : d' ∈ T) (hold : dist v = none ∨ ∃ dv, dist v = some dv ∧ d' < dv) :
    slack T n (assign dist v (some d')) < slack T n dist := by
  unfold slack
  apply Finset.sum_lt_sum
  · intro i _
    apply Finset.card_le_card
    intro t ht
    rw [Finset.mem_filter] at ht ⊢
    refine ⟨ht.1, ?_⟩
    have h2 := ht.2
    simp only [assign] at h2
    split at h2
    · next hiv =>
      subst hiv
      rw [ltD_some_iff] at h2 ⊢
      rcases h2 with h | ⟨b, hb, hlt⟩
      · cases h
      · cases hb
        rcases hold with h0 | ⟨dv, h1, h3⟩
        · exact Or.inl h0
        · exact Or.inr ⟨dv, h1, lt_trans hlt h3⟩
    · exact h2
  · refine ⟨v, Finset.mem_range.2 hv, ?_⟩
    apply Finset.card_lt_card
    rw [Finset.ssubset_iff_of_subset]
    · refine ⟨d', ?_, ?_⟩
      · rw [Finset.mem_filter]
        exact ⟨hT, (ltD_some_iff _ _).2 hold⟩
      · rw [Finset.mem_filter]
        simp [assign, ltD]
    · intro t ht
      rw [Finset.mem_filter] at ht ⊢
      refine ⟨ht.1, ?_⟩
      have h2 := ht.2
      simp only [assign, if_true] at h2
      rw [ltD_some_iff] at h2 ⊢
      rcases h2 with h | ⟨b, hb, hlt⟩
      · cases h
      · cases hb
        rcases hold with h0 | ⟨dv, h1, h3⟩
        · exact Or.inl h0
        · exact Or.inr ⟨dv, h1, lt_trans hlt h3⟩

theorem relax_dist_le {st : State W} (u : Nat) (e : Nat × W) :
    ∀ x dx, st.dist x = some dx → ∃ dx', (relax u st e).dist x = some dx' ∧ dx' ≤ dx := by
  intro x dx hx
  by_cases hlt : ltD (addD (st.dist u) e.2) (st.dist e.1) = true
  swap
  · rw [relax_eq_of_not_improve hlt]; exact ⟨dx, hx, le_refl _⟩
  rw [relax_eq_of_improve hlt]
  simp only [assign]
  by_cases hxv : x = e.1
  · rw [if_pos hxv]
    subst hxv
    rw [hx] at hlt
    cases hu : st.dist u with
    | none => rw [hu] at hlt; simp [addD, ltD] at hlt
    | some du =>
      rw [hu] at hlt
      simp only [addD, ltD, decide_eq_true_eq] at hlt
      exact ⟨du + e.2, rfl, le_of_lt hlt⟩
  · rw [if_neg hxv]; exact ⟨dx, hx, le_refl _⟩

theorem FoldInv.relax_fold {adj : List (List (Nat × W))} {n start : Nat} {T : Finset W} {u : Nat}
    {du : W} {M : Nat} {st : State W} (hn : NonNeg adj) (hs : start < n) (hT : Covers adj n T)
    (hu : u < n) (h : FoldInv adj n start T u du M st) {e : Nat × W}
    (he : e ∈ adj.getD u []) :
    FoldInv adj n start T u du M (relax u st e) ∧
    ∃ db, (relax u st e).dist e.1 = some db ∧ db ≤ du + e.2 := by
  have hcore := h.core.relax_core hn hu h.du he
  have hghost := h.ghost.relax_ghost hn h.core hu h.du he
  by_cases hlt : ltD (addD (st.dist u) e.2) (st.dist e.1) = true
  swap
  · have hrel : ∃ db, st.dist e.1 = some db ∧ db ≤ du + e.2 := by
      rw [h.du] at hlt
      exact (ltD_some_false_iff _ _).1 hlt
    rw [relax_eq_of_not_improve hlt]
    exact ⟨h, hrel⟩
  obtain ⟨hvn, hvs, hvu, hold⟩ := relax_improve_facts hn h.core h.du he hlt
  have heq := relax_eq_of_improve hlt
  rw [h.du] at heq
  simp only [addD] at heq
  rw [heq] at hcore hghost ⊢
  have hperm := pqPush_perm (assign st.dist e.1 (some (du + e.2))) st.pq e.1
  have hnew : assign st.dist e.1 (some (du + e.2)) e.1 = some (du + e.2) := by simp [assign]
  refine ⟨⟨hcore, hghost, ?_, ?_, ?_, ?_⟩, ⟨du + e.2, hnew, le_refl _⟩⟩
  · simp only [assign, if_neg (Ne.symm hvu)]; exact h.du
  · intro x hx
    rcases List.mem_cons.1 (hperm.mem_iff.1 hx) with hxv | hxq
    · subst hxv
      exact ⟨hvn, by simp [assign]⟩
    · obtain ⟨h1, h2⟩ := h.qmem x hxq
      refine ⟨h1, ?_⟩
      simp only [assign]
      split
      · simp
      · exact h2
  · intro a da han hau hda hnq e' he'
    have hav : a ≠ e.1 := by
      intro hav
      exact hnq (hperm.mem_iff.2 (hav ▸ List.mem_cons_self _ _))
    have hnq' : a ∉ st.pq := fun hq => hnq (hperm.mem_iff.2 (List.mem_cons_of_mem _ hq))
    simp only [assign, if_neg hav] at hda
    obtain ⟨db, h1, h2⟩ := h.relaxed a da han hau hda hnq' e' he'
    by_cases hev : e'.1 = e.1
    · refine ⟨du + e.2, by simp [assign, hev], ?_⟩
      rcases hold with h0 | ⟨dv, h3, h4⟩
      · rw [← hev, h1] at h0; cases h0
      · rw [← hev, h1] at h3; cases h3
        exact le_trans (le_of_lt h4) h2
    · exact ⟨db, by simp [assign, hev, h1], h2⟩
  · obtain ⟨vis, ws, hwit⟩ := hghost e.1 (du + e.2) hvn hnew
    have hmemT : du + e.2 ∈ T := hwit.mem_covers hs hT
    have hsl := slack_assign_lt T n st.dist e.1 (du + e.2) hvn hmemT hold
    have hlen : (pqPush (assign st.dist e.1 (some (du + e.2))) st.pq e.1).length
        = st.pq.length + 1 := by
      rw [hperm.length_eq]; simp
    have hb := h.bound
    simp only [loopMeasure] at hb ⊢
    rw [hlen]
    omega

theorem FoldInv.foldl_fold {adj : List (List (Nat × W))} {n start : Nat} {T : Finset W} {u : Nat}
    {du : W} {M : Nat} (hn : NonNeg adj) (hs : start < n) (hT : Covers adj n T) (hu : u < n) :
    ∀ (l done : List (Nat × W)) (st : State W), (∀ e ∈ l, e ∈ adj.getD u []) →
      FoldInv adj n start T u du M st →
      (∀ e ∈ done, ∃ db, st.dist e.1 = some db ∧ db ≤ du + e.2) →
      FoldInv adj n start T u du M (l.foldl (relax u) st) ∧
      ∀ e ∈ done ++ l, ∃ db, (l.foldl (relax u) st).dist e.1 = some db ∧ db ≤ du + e.2 := by
  intro l
  induction l with
  | nil =>
    intro done st _ h hd
    refine ⟨h, ?_⟩
    intro e he
    rw [List.append_nil] at he
    exact hd e he
  | cons e l ih =>
    intro done st hl h hd
    obtain ⟨h1, h2⟩ := FoldInv.relax_fold hn hs hT hu h (hl e (List.mem_cons_self _ _))
    have hd' : ∀ e' ∈ done ++ [e],
        ∃ db, (relax u st e).dist e'.1 = some db ∧ db ≤ du + e'.2 := by
      intro e' he'
      rcases List.mem_append.1 he' with hm | hm
      · obtain ⟨db, h3, h4⟩ := hd e' hm
        obtain ⟨db', h5, h6⟩ := relax_dist_le u e e'.1 db h3
        exact ⟨db', h5, le_trans h6 h4⟩
      · simp only [List.mem_singleton] at hm
        subst hm
        exact h2
    have := ih (done ++ [e]) (relax u st e) (fun e' he' => hl e' (List.mem_cons_of_mem _ he'))
      h1 hd'
    rw [List.foldl_cons]
    refine ⟨this.1, ?_⟩
    intro e' he'
    exact this.2 e' (by simpa [List.append_assoc] using he')

theorem initState_core (adj : List (List (Nat × W))) (n start : Nat) (hs : start < n) :
    Core adj n start (initState n start) := by
  have hd : ∀ v, (initState n start : State W).dist v
      = if v = start then some 0 else if v < n then none else some 0 := fun v => rfl
  constructor
  · intro v hv
    rw [hd, if_neg (by omega), if_neg (by omega)]
  · intro v d h
    rw [hd] at h
    split at h
    · cases h; exact le_refl _
    · split at h
      · cases h
      · cases h; exact le_refl _
  · rw [hd, if_pos rfl]
  · rfl
  · intro x p h
    cases h
  · intro x hx hxs h
    rw [hd, if_neg hxs, if_pos hx] at h
    exact absurd rfl h
  · intro x hx h
    rw [hd] at h
    split at h
    · next hxs => rw [hxs]; exact Relation.ReflTransGen.refl
    · exact absurd rfl h

theorem initState_ghost (adj : List (List (Nat × W))) (n start : Nat) :
    Ghost adj n start (initState n start : State W).dist := by
  intro v d hv h
  have hd : (initState n start : State W).dist v
      = if v = start then some 0 else if v < n then none else some 0 := rfl
  rw [hd] at h
  split at h
  · next hvs =>
    cases h
    rw [hvs]
    exact ⟨[start], [], Wit.base⟩
  · cases h

theorem initState_pq (n start : Nat) (x : Nat) :
    x ∈ (initState n start : State W).pq ↔ x = start := by
  have h := pqPush_perm (assign (fun i => if i < n then (none : Option W) else some 0) start
    (some 0)) [] start
  have : (initState n start : State W).pq = pqPush (assign (fun i => if i < n then
    (none : Option W) else some 0) start (some 0)) [] start := rfl
  rw [this, h.mem_iff]
  simp

theorem initState_qinv (adj : List (List (Nat × W))) (n start : Nat) (hs : start < n) :
    QInv adj n (initState n start : State W) := by
  have hd : ∀ v, (initState n start : State W).dist v
      = if v = start then some 0 else if v < n then none else some 0 := fun v => rfl
  constructor
  · intro x hx
    rw [initState_pq] at hx
    subst hx
    exact ⟨hs, by rw [hd, if_pos rfl]; simp⟩
  · intro a da ha h hq
    rw [initState_pq] at hq
    rw [hd, if_neg hq, if_pos ha] at h
    cases h

theorem mainLoop_terminates {adj : List (List (Nat × W))} {n start : Nat} {T : Finset W}
    (target : Nat) (hn : NonNeg adj) (hs : start < n) (hT : Covers adj n T) :
    ∀ (M : Nat) (st : State W), Core adj n start st → Ghost adj n start st.dist →
      QInv adj n st → loopMeasure T n st ≤ M →
      ∃ r, mainLoop adj target (M + 1) st = some r ∧ Core adj n start r ∧
        (r.dist target ≠ none ∨ AllRelaxed adj n r) := by
  intro M
  induction M with
  | zero =>
    intro st hc _ hq hm
    have hnil : st.pq = [] := by
      simp only [loopMeasure] at hm
      exact List.length_eq_zero.1 (by omega)
    refine ⟨st, by simp [mainLoop, hnil], hc, Or.inr ?_⟩
    intro a da ha hda e he
    exact hq.relaxed a da ha hda (by simp [hnil]) e he
  | succ M ih =>
    intro st hc hg hq hm
    rw [mainLoop]
    cases hpq : st.pq with
    | nil =>
      refine ⟨st, rfl, hc, Or.inr ?_⟩
      intro a da ha hda e he
      exact hq.relaxed a da ha hda (by simp [hpq]) e he
    | cons u rest =>
      dsimp only
      have hu := hq.mem u (by simp [hpq])
      have hperm := pqPop_perm st.dist u rest
      have hc1 : Core adj n start { st with pq := pqPop st.dist (u :: rest) } :=
        ⟨hc.out, hc.nonneg, hc.start_dist, hc.start_parent, hc.edge, hc.has_parent, hc.anc⟩
      by_cases hut : u = target
      · rw [if_pos hut]
        exact ⟨_, rfl, hc1, Or.inl (hut ▸ hu.2)⟩
      · rw [if_neg hut]
        obtain ⟨du, hdu⟩ := Option.ne_none_iff_exists'.1 hu.2
        have hfi : FoldInv adj n start T u du M { st with pq := pqPop st.dist (u :: rest) } := by
          refine ⟨hc1, hg, hdu, ?_, ?_, ?_⟩
          · intro x hx
            exact hq.mem x (by rw [hpq]; exact List.mem_cons_of_mem _ (hperm.mem_iff.1 hx))
          · intro a da ha hau hda hnq e he
            refine hq.relaxed a da ha hda ?_ e he
            rw [hpq]
            intro hmem
            rcases List.mem_cons.1 hmem with h1 | h1
            · exact hau h1
            · exact hnq (hperm.mem_iff.2 h1)
          · simp only [loopMeasure] at hm ⊢
            rw [hperm.length_eq]
            rw [hpq] at hm
            simp only [List.length_cons] at hm
            omega
        obtain ⟨hf, hdone⟩ := FoldInv.foldl_fold hn hs hT hu.1 (adj.getD u []) [] _
          (fun e he => he) hfi (by simp)
        have hq' : QInv adj n ((adj.getD u []).foldl (relax u)
            { st with pq := pqPop st.dist (u :: rest) }) := by
          refine ⟨hf.qmem, ?_⟩
          intro a da ha hda hnq e he
          by_cases hau : a = u
          · subst hau
            rw [hf.du] at hda
            cases hda
            exact hdone e (by simpa using he)
          · exact hf.relaxed a da ha hau hda hnq e he
        exact ih _ hf.core hf.ghost hq' hf.bound

theorem walkParents_of_anc {parent : Nat → Option Nat} {v s : Nat} (h : Anc parent v s)
    (hs : parent s = none) :
    ∃ (chain : List Nat) (k : Nat),
      (∀ fuel, k ≤ fuel → ∀ acc, walkParents parent fuel (some v) acc = some (acc ++ chain)) ∧
      chain.head? = some v ∧ chain.getLast? = some s ∧
      List.Chain' (fun a b => parent a = some b) chain := by
  induction h using Relation.ReflTransGen.head_induction_on with
  | refl =>
    refine ⟨[s], 1, ?_, rfl, rfl, List.chain'_singleton _⟩
    intro fuel hf acc
    obtain ⟨f, rfl⟩ : ∃ f, fuel = f + 1 := ⟨fuel - 1, by omega⟩
    rw [walkParents, hs]
    cases f <;> rfl
  | @head x y hstep _ ih =>
    obtain ⟨chain, k, h1, h2, h3, h4⟩ := ih
    refine ⟨x :: chain, k + 1, ?_, rfl, ?_, ?_⟩
    · intro fuel hf acc
      obtain ⟨f, rfl⟩ : ∃ f, fuel = f + 1 := ⟨fuel - 1, by omega⟩
      rw [walkParents, hstep, h1 f (by omega)]
      simp
    · cases chain with
      | nil => simp at h2
      | cons c cs => simpa [List.getLast?_cons_cons] using h3
    · cases chain with
      | nil => simp at h2
      | cons c cs =>
        simp only [List.head?_cons, Option.some.injEq] at h2
        subst h2
        exact List.Chain'.cons hstep h4

theorem Anc.walk {adj : List (List (Nat × W))} {n start : Nat} {st : State W}
    (hc : Core adj n start st) {x b : Nat} (h : Anc st.parent x b) : ∃ d, Walk adj b x d := by
  induction h with
  | refl => exact ⟨0, Walk.nil x⟩
  | tail _ hbc ih =>
    obtain ⟨d, hw⟩ := ih
    obtain ⟨_, _, w, _, _, hmem, _, _, _⟩ := hc.edge _ _ hbc
    exact ⟨w + d, Walk.cons hmem hw⟩

theorem AllRelaxed.finite_of_walk {adj : List (List (Nat × W))} {n : Nat} {st : State W}
    (hlen : adj.length = n) (hr : AllRelaxed adj n st) {a b : Nat} {d : W}
    (hw : Walk adj a b d) : st.dist a ≠ none → st.dist b ≠ none := by
  induction hw with
  | nil => exact id
  | @cons u v t w d hmem _ ih =>
    intro hu
    have hun : u < n := by
      by_contra hcon
      have : adj.getD u [] = [] := by
        rw [List.getD_eq_getElem?_getD, List.getElem?_eq_none (by omega)]
        rfl
      rw [this] at hmem
      simp at hmem
    obtain ⟨du, hdu⟩ := Option.ne_none_iff_exists'.1 hu
    obtain ⟨db, hdb, _⟩ := hr u du hun hdu (v, w) hmem
    exact ih (by rw [hdb]; simp)

/-- The outcome of `findShortestPath` for distinct valid nodes, with all that the invariants
give about it. -/
theorem findShortestPath_outcome (adj : List (List (Nat × W))) (n start target : Nat)
    (hn : NonNeg adj) (hs : start < n) (ht : target < n) (hne : start ≠ target) :
    ∃ N, ∀ fuel, N ≤ fuel → ∃ (st : State W) (path : List Nat) (d : W),
      findShortestPath fuel adj n start target = some (path, d) ∧
      Core adj n start st ∧
      (st.dist target ≠ none ∨ AllRelaxed adj n st) ∧
      ((st.dist target = none ∧ path = [] ∧ d = 0) ∨
       (st.dist target = some d ∧ path.head? = some start ∧ path.getLast? = some target ∧
          List.Chain' (fun a b => st.parent b = some a) path)) := by
  obtain ⟨T, hT⟩ := exists_covers adj n
  obtain ⟨r, hr, hcore, hpost⟩ := mainLoop_terminates target hn hs hT
    (loopMeasure T n (initState n start)) (initState n start) (initState_core adj n start hs)
    (initState_ghost adj n start) (initState_qinv adj n start hs) (le_refl _)
  cases hd : r.dist target with
  | none =>
    refine ⟨loopMeasure T n (initState n start : State W) + 1, ?_⟩
    intro fuel hf
    refine ⟨r, [], 0, ?_, hcore, hpost, Or.inl ⟨hd, rfl, rfl⟩⟩
    unfold findShortestPath
    rw [if_neg hne, mainLoop_mono adj target _ r hf hr]
    simp [hd]
  | some d =>
    have hanc := hcore.anc target ht (by rw [hd]; simp)
    obtain ⟨chain, k, h1, h2, h3, h4⟩ := walkParents_of_anc hanc hcore.start_parent
    refine ⟨max (loopMeasure T n (initState n start : State W) + 1) k, ?_⟩
    intro fuel hf
    refine ⟨r, chain.reverse, d, ?_, hcore, hpost, Or.inr ⟨hd, ?_, ?_, ?_⟩⟩
    · unfold findShortestPath
      rw [if_neg hne, mainLoop_mono adj target _ r (le_trans (le_max_left _ _) hf) hr]
      simp only [hd]
      rw [h1 fuel (le_trans (le_max_right _ _) hf) []]
      simp
    · rw [List.head?_reverse]; exact h3
    · rw [List.getLast?_reverse]; exact h2
    · rw [List.chain'_reverse]
      exact h4

end InvariantProofs

/-! ## The general claims about findShortestPath -/

section General

variable {W : Type} [LinearOrderedAddCommMonoid W]

/-- C3: for every adjacency list with non-negative weights and distinct valid nodes `start`,
`end`, `findShortestPath` returns (with enough fuel for its loops), and if the path returned
is non-empty then it begins at `start`, ends at `end`, and every two consecutive nodes
`u`, `v` of it have an entry `(v, w)` in `adjacencyList[u]`. -/
theorem findShortestPath_path_is_route (adj : List (List (Nat × W))) (n start target : Nat)
    (hn : NonNeg adj) (hs : start < n) (ht : target < n) (hne : start ≠ target) :
    ∃ N, ∀ fuel, N ≤ fuel → ∃ (path : List Nat) (d : W),
      findShortestPath fuel adj n start target = some (path, d) ∧
      (path ≠ [] →
        path.head? = some start ∧ path.getLast? = some target ∧ EdgesOf adj path) := by
  obtain ⟨N, h⟩ := findShortestPath_outcome adj n start target hn hs ht hne
  refine ⟨N, fun fuel hf => ?_⟩
  obtain ⟨st, path, d, hr, hcore, _, hcases⟩ := h fuel hf
  refine ⟨path, d, hr, fun hpath => ?_⟩
  rcases hcases with ⟨_, h1, _⟩ | ⟨_, h1, h2, h3⟩
  · exact absurd h1 hpath
  · refine ⟨h1, h2, ?_⟩
    unfold EdgesOf
    refine List.Chain'.imp ?_ h3
    intro a b hab
    obtain ⟨_, _, w, _, _, hmem, _⟩ := hcore.edge b a hab
    exact ⟨w, hmem⟩

/-- In exact arithmetic (the sums `dist[u] + w` neither round nor overflow): for every
adjacency list (one list per node) with non-negative weights and distinct valid nodes `start`,
`end`, `findShortestPath` returns, and it returns the empty path with distance 0 exactly when
`end` is not reachable from `start`; when `end` is reachable the path returned is
non-empty. -/
theorem findShortestPath_empty_iff_unreachable (adj : List (List (Nat × W)))
    (n start target : Nat) (hn : NonNeg adj) (hlen : adj.length = n) (hs : start < n)
    (ht : target < n) (hne : start ≠ target) :
    ∃ N, ∀ fuel, N ≤ fuel → ∃ (path : List Nat) (d : W),
      findShortestPath fuel adj n start target = some (path, d) ∧
      ((path = [] ∧ d = 0) ↔ ¬ Reachable adj start target) ∧
      (Reachable adj start target → path ≠ []) := by
  obtain ⟨N, h⟩ := findShortestPath_outcome adj n start target hn hs ht hne
  refine ⟨N, fun fuel hf => ?_⟩
  obtain ⟨st, path, d, hr, hcore, hpost, hcases⟩ := h fuel hf
  refine ⟨path, d, hr, ?_⟩
  rcases hcases with ⟨h0, h1, h2⟩ | ⟨h0, h1, _, _⟩
  · have hunreach : ¬ Reachable adj start target := by
      rintro ⟨d', hw⟩
      rcases hpost with hfin | hrel
      · exact hfin h0
      · exact AllRelaxed.finite_of_walk hlen hrel hw (by rw [hcore.start_dist]; simp) h0
    exact ⟨⟨fun _ => hunreach, fun _ => ⟨h1, h2⟩⟩, fun hreach => absurd hreach hunreach⟩
  · have hreach : Reachable adj start target :=
      (hcore.anc target ht (by rw [h0]; simp)).walk hcore
    have hpath : path ≠ [] := by
      intro hnil; rw [hnil] at h1; simp at h1
    exact ⟨⟨fun hp => absurd hp.1 hpath, fun hnr => absurd hreach hnr⟩, fun _ => hpath⟩

end General

/-- C3 on the hardcoded graph from Rajshahi (5) to Barishal (6): the path returned is
`5, 2, 3, 6`, it starts at 5, ends at 6 and follows edges of the graph. -/
theorem findShortestPath_path_is_route_5_6 :
    findShortestPath 16 adjacencyList 7 5 6 = some ([5, 2, 3, 6], 940) ∧
    EdgesOf adjacencyList [5, 2, 3, 6] := by
  obtain ⟨N, h⟩ := findShortestPath_path_is_route adjacencyList 7 5 6
    (fun _ _ e _ => Nat.zero_le e.2) (by decide) (by decide) (by decide)
  obtain ⟨path, d, hr, hp⟩ := h (max N 16) (le_max_left _ _)
  have hv : findShortestPath 16 adjacencyList 7 5 6 = some ([5, 2, 3, 6], 940) := by decide
  rw [findShortestPath_mono _ _ _ _ _ (le_max_right N 16) hv] at hr
  simp only [Option.some.injEq, Prod.mk.injEq] at hr
  rw [← hr.1] at hp
  exact ⟨hv, (hp (by simp)).2.2⟩

/-- In exact arithmetic, on a graph with an isolated node: `findShortestPath(0, 2)` returns
the empty path with distance 0, and node 2 is not reachable from node 0. -/
theorem findShortestPath_empty_iff_unreachable_island :
    findShortestPath 4 islandAdjacency 3 0 2 = some ([], 0) ∧
    ¬ Reachable islandAdjacency 0 2 := by
  obtain ⟨N, h⟩ := findShortestPath_empty_iff_unreachable islandAdjacency 3 0 2
    (fun _ _ e _ => Nat.zero_le e.2) (by decide) (by decide) (by decide) (by decide)
  obtain ⟨path, d, hr, hiff, _⟩ := h (max N 4) (le_max_left _ _)
  have hv : findShortestPath 4 islandAdjacency 3 0 2 = some ([], 0) := by decide
  rw [findShortestPath_mono _ _ _ _ _ (le_max_right N 4) hv] at hr
  simp only [Option.some.injEq, Prod.mk.injEq] at hr
  exact ⟨hv, hiff.1 ⟨hr.1.symm, hr.2.symm⟩⟩

/-! ## The edges drawn are the edges routed over -/

/-- C14: `lines` has 24 entries and for every `k < 12` its entries `2k` and `2k+1` are the
start and the end of `linesWithWeights[k]`; that is, `lines` lists the endpoint pairs of
`linesWithWeights` in the same order. -/
theorem lines_are_linesWithWeights :
    lines.length = 24 ∧ linesWithWeights.length = 12 ∧
    (∀ k, k < 12 →
      lines[2 * k]? = (linesWithWeights[k]?).map WeightedLine.start ∧
      lines[2 * k + 1]? = (linesWithWeights[k]?).map WeightedLine.end) ∧
    lines = linesWithWeights.flatMap (fun e => [e.start, e.end]) := by
  refine ⟨rfl, rfl, by decide, by decide⟩

/-! ## Order of the two clicks -/

set_option maxRecDepth 100000 in
theorem hardcoded_reverse :
    ∀ a, a < 7 → ∀ b, b < 7 →
      (findShortestPath 16 adjacencyList 7 a b).map Prod.snd
        = (findShortestPath 16 adjacencyList 7 b a).map Prod.snd ∧
      ((a = 1 ∧ b = 5) ∨ (a = 5 ∧ b = 1) ∨
        (findShortestPath 16 adjacencyList 7 b a).map Prod.fst
          = (findShortestPath 16 adjacencyList 7 a b).map (fun r => r.1.reverse)) := by
  decide

/-- C17 fails for Sylhet (1) and Rajshahi (5): from 1 to 5 the route is `1, 4, 2, 5`, from
5 to 1 it is `5, 0, 1`, which is not the reverse; both have length 717. -/
theorem findShortestPath_not_reversed_1_5 :
    findShortestPath 16 adjacencyList 7 1 5 = some ([1, 4, 2, 5], 717) ∧
    findShortestPath 16 adjacencyList 7 5 1 = some ([5, 0, 1], 717) ∧
    [5, 0, 1] ≠ [1, 4, 2, 5].reverse := by
  refine ⟨by decide, by decide, by decide⟩

/-- C17 as amended: on the hardcoded graph the distance returned does not depend on the
order of the two nodes, and for every pair of nodes other than the pair 1, 5 the path
returned for `(b, a)` is the reverse of the path returned for `(a, b)`. -/
theorem findShortestPath_reversed (a b : Nat) (ha : a < 7) (hb : b < 7)
    (fuel : Nat) (hfuel : 16 ≤ fuel) :
    ∃ (p q : List Nat) (d : Nat),
      findShortestPath fuel adjacencyList 7 a b = some (p, d) ∧
      findShortestPath fuel adjacencyList 7 b a = some (q, d) ∧
      (¬ (a = 1 ∧ b = 5) → ¬ (a = 5 ∧ b = 1) → q = p.reverse) := by
  obtain ⟨tl, d, hr, _, _⟩ := hardcoded_result_path a b ha hb
  obtain ⟨tl', d', hr', _, _⟩ := hardcoded_result_path b a hb ha
  have h := hardcoded_reverse a ha b hb
  rw [hr, hr'] at h
  simp only [Option.map_some', Option.some.injEq] at h
  refine ⟨a :: tl, b :: tl', d, findShortestPath_mono _ _ _ _ _ hfuel hr, ?_, ?_⟩
  · rw [h.1]
    exact findShortestPath_mono _ _ _ _ _ hfuel hr'
  · intro h1 h2
    rcases h.2 with h3 | h3 | h3
    · exact absurd h3 h1
    · exact absurd h3 h2
    · exact h3

/-- C17 as amended, at Rangpur (0) and Barishal (6): `0, 4, 3, 6` one way, `6, 3, 4, 0` the
other, both of length 794. -/
theorem findShortestPath_reversed_0_6 :
    findShortestPath 16 adjacencyList 7 0 6 = some ([0, 4, 3, 6], 794) ∧
    findShortestPath 16 adjacencyList 7 6 0 = some ([0, 4, 3, 6].reverse, 794) := by
  obtain ⟨p, q, d, h1, h2, h3⟩ :=
    findShortestPath_reversed 0 6 (by decide) (by decide) 16 (le_refl _)
  have hv : findShortestPath 16 adjacencyList 7 0 6 = some ([0, 4, 3, 6], 794) := by decide
  rw [hv] at h1
  simp only [Option.some.injEq, Prod.mk.injEq] at h1
  rw [h3 (by decide) (by decide), ← h1.1, ← h1.2] at h2
  exact ⟨hv, h2⟩

/-! ## The image keys -/

theorem wrapIndex_of_mem (c n : Int) (h0 : 0 ≤ c) (h1 : c < n) : wrapIndex c n = c := by
  rw [wrapIndex_eq_emod c n (by omega)]
  exact Int.emod_eq_of_lt h0 h1

theorem wrapIndex_add_sub (c n : Int) (hn : 0 < n) :
    wrapIndex (wrapIndex (c + 1) n - 1) n = wrapIndex c n ∧
    wrapIndex (wrapIndex (c - 1) n + 1) n = wrapIndex c n := by
  simp only [wrapIndex_eq_emod _ n hn]
  constructor
  · rw [Int.sub_emod, Int.emod_emod_of_dvd _ (dvd_refl n), ← Int.sub_emod]
    congr 1
    ring
  · rw [Int.add_emod, Int.emod_emod_of_dvd _ (dvd_refl n), ← Int.add_emod]
    congr 1
    ring

/-- C15: for `n > 0` and `0 ≤ c < n`, going to the next image and back, or to the previous
image and forth, returns to `c`; and after either key the stored index lies in `0..n-1`,
whatever it was before. -/
theorem image_keys_inverse (n : Int) (c : Int) (hn : 0 < n) (h0 : 0 ≤ c) (h1 : c < n) :
    wrapIndex (wrapIndex (c + 1) n - 1) n = c ∧
    wrapIndex (wrapIndex (c - 1) n + 1) n = c ∧
    (∀ (cur : Int) (size : Nat), (size : Int) = n →
      prevImageIndex (nextImageIndex c size) size = c ∧
      nextImageIndex (prevImageIndex c size) size = c ∧
      0 ≤ nextImageIndex cur size ∧ nextImageIndex cur size < n ∧
      0 ≤ prevImageIndex cur size ∧ prevImageIndex cur size < n) := by
  have hw := wrapIndex_add_sub c n hn
  have hc := wrapIndex_of_mem c n h0 h1
  refine ⟨hw.1.trans hc, hw.2.trans hc, ?_⟩
  intro cur size hsize
  have hs : size ≠ 0 := by
    intro h; rw [h] at hsize; simp at hsize; omega
  simp only [nextImageIndex, prevImageIndex, if_pos hs, hsize]
  have hr1 := wrapIndex_eq_emod (cur + 1) n hn
  have hr2 := wrapIndex_eq_emod (cur - 1) n hn
  refine ⟨hw.1.trans hc, hw.2.trans hc, ?_, ?_, ?_, ?_⟩
  · rw [hr1]; exact Int.emod_nonneg _ (by omega)
  · rw [hr1]; exact Int.emod_lt_of_pos _ hn
  · rw [hr2]; exact Int.emod_nonneg _ (by omega)
  · rw [hr2]; exact Int.emod_lt_of_pos _ hn

/-- C15 with three images at the last one: `]` wraps to the first, `[` returns to the last. -/
theorem image_keys_inverse_last_of_three :
    wrapIndex (2 + 1) 3 = 0 ∧ wrapIndex (wrapIndex (2 + 1) 3 - 1) 3 = 2 ∧
    wrapIndex (wrapIndex (2 - 1) 3 + 1) 3 = 2 :=
  ⟨by decide, (image_keys_inverse 3 2 (by decide) (by decide) (by decide)).1,
    (image_keys_inverse 3 2 (by decide) (by decide) (by decide)).2.1⟩

/-! ## The glyph table -/

theorem glyph_coverage_ascii :
    ∀ k, k < 128 →
      (('0' ≤ Char.ofNat k ∧ Char.ofNat k ≤ '9') ∨ Char.ofNat k = '.' ∨ Char.ofNat k = '-' ∨
        Char.ofNat k = ' ' ∨
        (('A' ≤ Char.ofNat k ∧ Char.ofNat k ≤ 'Z') ∧ Char.ofNat k ∉ lettersWithoutGlyph)) →
      (findGlyph (Char.ofNat k)).isSome = true := by
  decide

theorem char_le_Z_lt (ch : Char) (h : ch ≤ 'Z') : ch.toNat < 128 := by
  have : ch.toNat ≤ ('Z' : Char).toNat := h
  have h2 : ('Z' : Char).toNat = 90 := by decide
  omega

/-- C11 as amended: the table `GLYPH_5x7` has a glyph for every digit, for `.`, `-` and the
space, and for every uppercase letter other than F, M, Q, V, W, X and Z. -/
theorem glyph_table_coverage (ch : Char)
    (h : ('0' ≤ ch ∧ ch ≤ '9') ∨ ch = '.' ∨ ch = '-' ∨ ch = ' ' ∨
      (('A' ≤ ch ∧ ch ≤ 'Z') ∧ ch ∉ lettersWithoutGlyph)) :
    (findGlyph ch).isSome = true := by
  have hlt : ch.toNat < 128 := by
    rcases h with h | h | h | h | h
    · exact char_le_Z_lt ch (le_trans h.2 (by decide))
    · subst h; decide
    · subst h; decide
    · subst h; decide
    · exact char_le_Z_lt ch h.1.2
  have hof : Char.ofNat ch.toNat = ch := Char.ofNat_toNat ch
  have := glyph_coverage_ascii ch.toNat hlt
  rw [hof] at this
  exact this h

/-- C11 at the letter `A`, which has a glyph. -/
theorem glyph_table_coverage_A : (findGlyph 'A').isSome = true :=
  glyph_table_coverage 'A' (Or.inr (Or.inr (Or.inr (Or.inr (by decide)))))

/-- C11 fails at the uppercase letter `F`: the table has no entry for it. -/
theorem glyph_table_no_F : ('A' ≤ 'F' ∧ 'F' ≤ 'Z') ∧ findGlyph 'F' = none := by
  decide

/-- C18 fails on the code: the distance text of every integer distance `k` is the numeral of `k`
followed by `KM`, its letter `M` has no entry in `GLYPH_5x7` and is drawn with the rows of the
space; every character of the seven node names, and every other character of the three HUD
texts (digits, `.`, `K`, `H` and those of `COST BDT `), does have an entry. -/
theorem distance_text_M_without_glyph (k : Nat) :
    distTxt (k : ℚ) = toString k ++ "KM" ∧
    'M' ∈ (distTxt (k : ℚ)).data ∧
    ('M' : Char).toUpper = 'M' ∧ findGlyph 'M' = none ∧ glyphRows 'M' = glyphRows ' ' ∧
    (∀ name ∈ nodeNames, ∀ ch ∈ name.data, (findGlyph ch.toUpper).isSome = true) ∧
    (∀ ch ∈ "0123456789.KH".data ++ "COST BDT ".data,
      (findGlyph ch.toUpper).isSome = true) := by
  have h : distTxt (k : ℚ) = toString k ++ "KM" := by
    simp [distTxt, roundHalfAway_natCast, toString]
  refine ⟨h, ?_, by decide, by decide, by decide, by decide, by decide⟩
  rw [h, String.data_append]
  exact List.mem_append_right _ (by decide)

/-! ## What drawLabelAtPixelScaled draws -/

theorem mem_drawLabel (px py : ℚ) (text : String) (scale : ℚ) (hs : 0 < scale) (r : Rect) :
    r ∈ drawLabelAtPixelScaled px py text scale ↔
    ∃ i, i < text.length ∧ ∃ rrow, rrow < 7 ∧ ∃ col, col < 5 ∧
      bitSet ((glyphRows (text.data.getD i ' ')).getD rrow 0) col = true ∧
      r = { left := px + (i : ℚ) * (16 * scale) + (col : ℚ) * (3 * scale)
            top := py + (rrow : ℚ) * (3 * scale)
            right := px + (i : ℚ) * (16 * scale) + (col : ℚ) * (3 * scale) + 2 * scale
            bottom := py + (rrow : ℚ) * (3 * scale) + 2 * scale } := by
  have hsc : ¬ scale ≤ 0 := not_le.2 hs
  have e1 : charW scale + charGap scale = 16 * scale := by unfold charW charGap; ring
  have e2 : 2 * scale + 1 * scale = 3 * scale := by ring
  unfold drawLabelAtPixelScaled
  simp only [if_neg hsc, List.mem_flatMap, List.mem_range, e1, e2]
  constructor
  · rintro ⟨i, hi, rrow, hr, col, hc, hmem⟩
    refine ⟨i, hi, rrow, hr, col, hc, ?_⟩
    split at hmem
    · next hb => exact ⟨hb, by simpa using hmem⟩
    · simp at hmem
  · rintro ⟨i, hi, rrow, hr, col, hc, hb, hmem⟩
    refine ⟨i, hi, rrow, hr, col, hc, ?_⟩
    rw [if_pos hb]
    simp [hmem]

/-- C12: for every scale `> 0`, text and anchor, each dot rectangle of
`drawLabelAtPixelScaled` lies in the box from `px_left` to `px_left + measureTextWidthPx` and
from `py_top` to `py_top + charH`, with `charH = 20 * scale`; and when the glyph of the last
character has its last column set in some row, a dot ends exactly at the measured width. -/
theorem drawLabel_within_measured_box (px py : ℚ) (text : String) (scale : ℚ)
    (hs : 0 < scale) :
    charH scale = 20 * scale ∧
    (∀ r ∈ drawLabelAtPixelScaled px py text scale,
      px ≤ r.left ∧ r.left ≤ r.right ∧ r.right ≤ px + measureTextWidthPx text scale ∧
      py ≤ r.top ∧ r.top ≤ r.bottom ∧ r.bottom ≤ py + charH scale) ∧
    (∀ rrow, rrow < 7 → 1 ≤ text.length →
      bitSet ((glyphRows (text.data.getD (text.length - 1) ' ')).getD rrow 0) 4 = true →
      ∃ r ∈ drawLabelAtPixelScaled px py text scale,
        r.right = px + measureTextWidthPx text scale) := by
  have hH : charH scale = 20 * scale := by unfold charH; ring
  refine ⟨hH, ?_, ?_⟩
  · intro r hr
    obtain ⟨i, hi, rrow, hrow, col, hcol, _, rfl⟩ := (mem_drawLabel px py text scale hs r).1 hr
    have hn : 1 ≤ text.length := by omega
    rw [measureTextWidthPx_of_pos text scale hn, hH]
    have hi' : (i : ℚ) + 1 ≤ (text.length : ℚ) := by exact_mod_cast hi
    have hc' : (col : ℚ) ≤ 4 := by exact_mod_cast Nat.lt_succ_iff.1 hcol
    have hr' : (rrow : ℚ) ≤ 6 := by exact_mod_cast Nat.lt_succ_iff.1 hrow
    have hi0 : (0 : ℚ) ≤ (i : ℚ) := Nat.cast_nonneg i
    have hc0 : (0 : ℚ) ≤ (col : ℚ) := Nat.cast_nonneg col
    have hr0 : (0 : ℚ) ≤ (rrow : ℚ) := Nat.cast_nonneg rrow
    have m1 : 0 ≤ (i : ℚ) * scale := mul_nonneg hi0 hs.le
    have m2 : 0 ≤ (col : ℚ) * scale := mul_nonneg hc0 hs.le
    have m3 : 0 ≤ (rrow : ℚ) * scale := mul_nonneg hr0 hs.le
    have m4 : ((i : ℚ) + 1) * scale ≤ (text.length : ℚ) * scale :=
      mul_le_mul_of_nonneg_right hi' hs.le
    have m5 : (col : ℚ) * scale ≤ 4 * scale := mul_le_mul_of_nonneg_right hc' hs.le
    have m6 : (rrow : ℚ) * scale ≤ 6 * scale := mul_le_mul_of_nonneg_right hr' hs.le
    refine ⟨?_, ?_, ?_, ?_, ?_, ?_⟩ <;> simp only <;> linarith
  · intro rrow hrow hn hb
    refine ⟨_, (mem_drawLabel px py text scale hs _).2
      ⟨text.length - 1, by omega, rrow, hrow, 4, by omega, hb, rfl⟩, ?_⟩
    rw [measureTextWidthPx_of_pos text scale hn]
    have : ((text.length - 1 : Nat) : ℚ) = (text.length : ℚ) - 1 := by
      rw [Nat.cast_sub hn]; simp
    simp only [this]
    push_cast
    ring

/-- C12 for the text `H` at scale 1 and anchor `(0, 0)`: a dot ends at the measured width. -/
theorem drawLabel_within_measured_box_H :
    ∃ r ∈ drawLabelAtPixelScaled 0 0 "H" 1, r.right = 0 + measureTextWidthPx "H" 1 :=
  (drawLabel_within_measured_box 0 0 "H" 1 (by norm_num)).2.2 0 (by decide) (by decide)
    (by decide)

/-! ## The click handler -/

theorem nodeNames_length : nodeNames.length = 7 := rfl

theorem mouse_button_callback_inv (fuel : Nat) (hfuel : 16 ≤ fuel) (st : ClickState)
    (hinv : ClickInv st) (clicked : Int) (hc : ValidClick clicked) :
    ∃ st1, mouse_button_callback fuel st clicked = some st1 ∧ ClickInv st1 := by
  unfold mouse_button_callback
  by_cases h1 : clicked = -1
  · exact ⟨st, by rw [if_pos h1], hinv⟩
  rw [if_neg h1]
  have hrange : 0 ≤ clicked ∧ clicked < 7 := hc.resolve_left h1
  dsimp only
  by_cases h2 : st.selectedNodeIndex1 = -1
  · rw [if_pos h2]
    exact ⟨_, rfl, hinv.1, Or.inr ⟨hrange.1, hrange.2, rfl⟩⟩
  rw [if_neg h2]
  have hsel := hinv.2.resolve_left h2
  by_cases h3 : clicked ≠ st.selectedNodeIndex1
  · rw [if_pos h3]
    have ha : st.selectedNodeIndex1.toNat < 7 := by omega
    have hb : clicked.toNat < 7 := by omega
    obtain ⟨tl, d, hr, _, _⟩ := hardcoded_result_path _ _ ha hb
    rw [nodeNames_length, findShortestPath_mono _ _ _ _ _ hfuel hr]
    exact ⟨_, rfl, rfl, Or.inl rfl⟩
  · rw [if_neg h3]
    exact ⟨_, rfl, hinv.1, Or.inr hsel⟩

theorem runClicks_inv (fuel : Nat) (hfuel : 16 ≤ fuel) :
    ∀ (clicks : List Int) (st : ClickState), ClickInv st → (∀ c ∈ clicks, ValidClick c) →
      ∃ st1, runClicks fuel st clicks = some st1 ∧ ClickInv st1 := by
  intro clicks
  induction clicks with
  | nil => intro st hinv _; exact ⟨st, rfl, hinv⟩
  | cons c cs ih =>
    intro st hinv hv
    obtain ⟨st1, h1, hinv1⟩ := mouse_button_callback_inv fuel hfuel st hinv c
      (hv c (List.mem_cons_self _ _))
    obtain ⟨st2, h2, hinv2⟩ := ih st1 hinv1 (fun c' hc' => hv c' (List.mem_cons_of_mem _ hc'))
    refine ⟨st2, ?_, hinv2⟩
    rw [runClicks, h1]
    exact h2

theorem callArguments_valid (st : ClickState) (hinv : ClickInv st) (clicked : Int)
    (hc : ValidClick clicked) (a b : Int) (h : callArguments st clicked = some (a, b)) :
    a = st.selectedNodeIndex1 ∧ b = clicked ∧ 0 ≤ a ∧ a < 7 ∧ 0 ≤ b ∧ b < 7 ∧ a ≠ b := by
  unfold callArguments at h
  by_cases h1 : clicked = -1
  · rw [if_pos h1] at h; cases h
  rw [if_neg h1] at h
  by_cases h2 : st.selectedNodeIndex1 = -1
  · rw [if_pos h2] at h; cases h
  rw [if_neg h2] at h
  by_cases h3 : clicked ≠ st.selectedNodeIndex1
  · rw [if_pos h3] at h
    simp only [Option.some.injEq, Prod.mk.injEq] at h
    obtain ⟨rfl, rfl⟩ := h
    have hsel := hinv.2.resolve_left h2
    have hrange := hc.resolve_left h1
    exact ⟨rfl, rfl, hsel.1, hsel.2.1, hrange.1, hrange.2, fun h => h3 h.symm⟩
  · rw [if_neg h3] at h; cases h

theorem mouse_button_callback_no_call (fuel fuel' : Nat) (st : ClickState) (clicked : Int)
    (h : callArguments st clicked = none) :
    mouse_button_callback fuel st clicked = mouse_button_callback fuel' st clicked := by
  unfold callArguments at h
  unfold mouse_button_callback
  by_cases h1 : clicked = -1
  · rw [if_pos h1, if_pos h1]
  rw [if_neg h1] at h
  rw [if_neg h1, if_neg h1]
  dsimp only
  by_cases h2 : st.selectedNodeIndex1 = -1
  · rw [if_pos h2, if_pos h2]
  rw [if_neg h2] at h
  rw [if_neg h2, if_neg h2]
  by_cases h3 : clicked ≠ st.selectedNodeIndex1
  · rw [if_pos h3] at h; cases h
  · rw [if_neg h3, if_neg h3]

theorem mouse_button_callback_same_node (fuel : Nat) (st : ClickState)
    (h : st.selectedNodeIndex1 ≠ -1) :
    mouse_button_callback fuel st st.selectedNodeIndex1
      = some { st with lastClickedNodeIndex := st.selectedNodeIndex1 } := by
  unfold mouse_button_callback
  rw [if_neg h]
  dsimp only
  rw [if_neg h, if_neg (by simp)]

/-- C13: from the initial state, after every sequence of clicks (each hitting a node `0..6` or
nothing) the handler has returned and `selectedNodeIndex2 = -1`, with `selectedNodeIndex1`
either `-1` or a node and then `pathIndices` empty.  In such a state every call of
`findShortestPath` is made with two distinct nodes in `0..6`, no other click depends on
`findShortestPath`, and a click on the pending start node changes only
`lastClickedNodeIndex`. -/
theorem click_handler_invariant (clicks : List Int) (hvalid : ∀ c ∈ clicks, ValidClick c)
    (fuel : Nat) (hfuel : 16 ≤ fuel) :
    ClickInv initialClickState ∧
    ∃ st, runClicks fuel initialClickState clicks = some st ∧ ClickInv st ∧
      (∀ clicked, ValidClick clicked → ∀ a b, callArguments st clicked = some (a, b) →
        a = st.selectedNodeIndex1 ∧ b = clicked ∧ 0 ≤ a ∧ a < 7 ∧ 0 ≤ b ∧ b < 7 ∧ a ≠ b) ∧
      (∀ clicked fuel', callArguments st clicked = none →
        mouse_button_callback fuel st clicked = mouse_button_callback fuel' st clicked) ∧
      (st.selectedNodeIndex1 ≠ -1 →
        mouse_button_callback fuel st st.selectedNodeIndex1
          = some { st with lastClickedNodeIndex := st.selectedNodeIndex1 }) := by
  have h0 : ClickInv initialClickState := ⟨rfl, Or.inl rfl⟩
  obtain ⟨st, hrun, hinv⟩ := runClicks_inv fuel hfuel clicks initialClickState h0 hvalid
  exact ⟨h0, st, hrun, hinv, fun clicked hc a b h => callArguments_valid st hinv clicked hc a b h,
    fun clicked fuel' h => mouse_button_callback_no_call fuel fuel' st clicked h,
    mouse_button_callback_same_node fuel st⟩

/-- C13 on the clicks Rangpur, Barishal, Chittagong, Chittagong: a route is computed on the
second click, the third click starts a new selection and clears the path, the fourth changes
nothing. -/
theorem click_handler_invariant_four_clicks :
    runClicks 16 initialClickState [0, 6, 3, 3]
      = some { selectedNodeIndex1 := 3, selectedNodeIndex2 := -1, lastClickedNodeIndex := 3,
               pathIndices := [], totalPathDistance := 794 } ∧
    ClickInv { selectedNodeIndex1 := 3, selectedNodeIndex2 := -1, lastClickedNodeIndex := 3,
               pathIndices := [], totalPathDistance := 794 } := by
  obtain ⟨_, st, hrun, hinv, _⟩ := click_handler_invariant [0, 6, 3, 3]
    (by intro c hc; simp at hc; unfold ValidClick; omega) 16 (le_refl _)
  have hv : runClicks 16 initialClickState [0, 6, 3, 3]
      = some { selectedNodeIndex1 := 3, selectedNodeIndex2 := -1, lastClickedNodeIndex := 3,
               pathIndices := [], totalPathDistance := 794 } := by decide
  rw [hv] at hrun
  cases hrun
  exact ⟨hv, hinv⟩

/-! ## Termination of findShortestPath -/

section Termination

variable {W : Type} [LinearOrderedAddCommMonoid W]

theorem no_cycle_of_anc {parent : Nat → Option Nat} {x s : Nat} (h : Anc parent x s)
    (hs : parent s = none) : ¬ Relation.TransGen (fun a b => parent a = some b) x x := by
  induction h using Relation.ReflTransGen.head_induction_on with
  | refl =>
    intro hc
    obtain ⟨y, hy, _⟩ := Relation.TransGen.head'_iff.1 hc
    rw [hs] at hy
    cases hy
  | @head x y hstep _ ih =>
    intro hc
    obtain ⟨y', hy', hrest⟩ := Relation.TransGen.head'_iff.1 hc
    rw [hstep] at hy'
    cases hy'
    exact ih (Relation.TransGen.tail' hrest hstep)

theorem Core.acyclic {adj : List (List (Nat × W))} {n start : Nat} {st : State W}
    (hc : Core adj n start st) (x : Nat) :
    ¬ Relation.TransGen (fun a b => st.parent a = some b) x x := by
  intro h
  obtain ⟨y, hy, _⟩ := Relation.TransGen.head'_iff.1 h
  obtain ⟨hx, _, _, _, dx, _, _, hdx, _⟩ := hc.edge x y hy
  exact no_cycle_of_anc (hc.anc x hx (by rw [hdx]; simp)) hc.start_parent h

theorem Core.walk_from {adj : List (List (Nat × W))} {n start : Nat} {st : State W}
    (hc : Core adj n start st) (x : Nat) (hx : x < n) :
    ∃ (chain : List Nat) (k : Nat),
      ∀ fuel, k ≤ fuel → ∀ acc, walkParents st.parent fuel (some x) acc = some (acc ++ chain) := by
  cases hd : st.dist x with
  | none =>
    have hp : st.parent x = none := by
      cases hp : st.parent x with
      | none => rfl
      | some p =>
        obtain ⟨_, _, _, _, dx, _, _, hdx, _⟩ := hc.edge x p hp
        rw [hd] at hdx
        cases hdx
    obtain ⟨chain, k, h, _⟩ := walkParents_of_anc (Relation.ReflTransGen.refl : Anc st.parent x x) hp
    exact ⟨chain, k, h⟩
  | some d =>
    obtain ⟨chain, k, h, _⟩ := walkParents_of_anc (hc.anc x hx (by rw [hd]; simp))
      hc.start_parent
    exact ⟨chain, k, h⟩

/-- C16: for every adjacency list with non-negative weights and valid nodes `start`, `end`,
`findShortestPath` terminates: with enough fuel it returns; its relaxation loop stops after
finitely many pops; in the state it stops in, the parent pointers form no cycle, and the walk
from `end` along them reaches `-1`. -/
theorem findShortestPath_terminates (adj : List (List (Nat × W))) (n start target : Nat)
    (hn : NonNeg adj) (hs : start < n) (ht : target < n) :
    ∃ N, ∀ fuel, N ≤ fuel →
      (∃ r, findShortestPath fuel adj n start target = some r) ∧
      (∃ st, mainLoop adj target fuel (initState n start) = some st ∧
        (∀ x, ¬ Relation.TransGen (fun a b => st.parent a = some b) x x) ∧
        (∃ path, walkParents st.parent fuel (some target) [] = some path)) := by
  obtain ⟨T, hT⟩ := exists_covers adj n
  obtain ⟨r, hr, hcore, _⟩ := mainLoop_terminates target hn hs hT
    (loopMeasure T n (initState n start)) (initState n start) (initState_core adj n start hs)
    (initState_ghost adj n start) (initState_qinv adj n start hs) (le_refl _)
  obtain ⟨chain, k, hwalk⟩ := hcore.walk_from target ht
  refine ⟨max (loopMeasure T n (initState n start : State W) + 1) k, ?_⟩
  intro fuel hf
  have hloop := mainLoop_mono adj target _ r (le_trans (le_max_left _ _) hf) hr
  have hw := hwalk fuel (le_trans (le_max_right _ _) hf) []
  refine ⟨?_, r, hloop, hcore.acyclic, _, hw⟩
  unfold findShortestPath
  by_cases hst : start = target
  · exact ⟨_, if_pos hst⟩
  · rw [if_neg hst, hloop]
    cases hd : r.dist target with
    | none => exact ⟨([], 0), by simp only [hd]⟩
    | some d => exact ⟨(([] ++ chain).reverse, d), by simp only [hd, hw]⟩

end Termination

/-- C16 on the graph `detourAdjacency`, where node 2 is pushed twice: the loops of
`findShortestPath(0, 3)` terminate. -/
theorem findShortestPath_terminates_detour :
    ∃ N, ∀ fuel, N ≤ fuel →
      (∃ r, findShortestPath fuel detourAdjacency 4 0 3 = some r) ∧
      (∃ st, mainLoop detourAdjacency 3 fuel (initState 4 0) = some st ∧
        (∀ x, ¬ Relation.TransGen (fun a b => st.parent a = some b) x x) ∧
        (∃ path, walkParents st.parent fuel (some 3) [] = some path)) :=
  findShortestPath_terminates detourAdjacency 4 0 3 (fun _ _ e _ => Nat.zero_le e.2)
    (by decide) (by decide)

/-! ## Sums in double precision -/

end Pathfinder
